import Mathlib

/-!
Shallow embedding of `maxtime.hh` (greedy versus exhaustive budgeted selection
of armor items) together with proofs about the embedded functions.

Modelling conventions:
* `double` cost/defense values are modelled as exact rationals (`ℚ`); the
  claims under study are about the selection logic, not floating-point rounding.
* C++ `int` is modelled as a 32-bit two's-complement integer where its width
  matters (the `pn *= 2` power-of-two loop); arithmetic that stays within
  `int` range is modelled directly on `ℕ`.
* `std::string` is a `List Char`.  `operator[]` is modelled with `List.getD`;
  every in-contract read is in bounds, and the out-of-bounds reads that the
  C++ code performs when `best_set` is still empty are modelled as producing
  the NUL character (a byte that is not `'1'`), matching the observable
  behaviour of the program.
* while-loops are modelled with an explicit fuel that equals the exact number
  of iterations the loop performs.
-/

/-- One armor item available for purchase (class `ArmorItem`).
The constructor asserts a non-empty description and a positive cost;
those class invariants appear as hypotheses of the theorems below. -/
structure ArmorItem where
  description : String
  cost : ℚ
  defense : ℚ
deriving DecidableEq, Repr

/-- A default element used only to model C++ indexing that is in bounds at
every call site (`source[optimal_choice_pos]`, `armors[j]`). -/
def dummyArmor : ArmorItem := ⟨"", 1, 0⟩

/-- `sum_armor_vector`: one pass accumulating `(total_cost, total_defense)`,
starting from `(0, 0)`. -/
def sum_armor_vector (armors : List ArmorItem) : ℚ × ℚ :=
  armors.foldl (fun acc armor => (acc.1 + armor.cost, acc.2 + armor.defense)) (0, 0)

/-- The total cost accumulated by `sum_armor_vector`. -/
def total_cost_of (armors : List ArmorItem) : ℚ :=
  (armors.map (fun a => a.cost)).sum

/-- The total defense accumulated by `sum_armor_vector`. -/
def total_defense_of (armors : List ArmorItem) : ℚ :=
  (armors.map (fun a => a.defense)).sum

theorem sum_armor_vector_fst (armors : List ArmorItem) :
    (sum_armor_vector armors).1 = total_cost_of armors := by
  suffices h : ∀ (l : List ArmorItem) (c d : ℚ),
      (l.foldl (fun acc armor => (acc.1 + armor.cost, acc.2 + armor.defense)) (c, d)).1 =
        c + total_cost_of l by
    simpa using h armors 0 0
  intro l
  induction l with
  | nil => intro c d; simp [total_cost_of]
  | cons a t ih =>
      intro c d
      simp only [List.foldl_cons, ih, total_cost_of, List.map_cons, List.sum_cons]
      ring

theorem sum_armor_vector_snd (armors : List ArmorItem) :
    (sum_armor_vector armors).2 = total_defense_of armors := by
  suffices h : ∀ (l : List ArmorItem) (c d : ℚ),
      (l.foldl (fun acc armor => (acc.1 + armor.cost, acc.2 + armor.defense)) (c, d)).2 =
        d + total_defense_of l by
    simpa using h armors 0 0
  intro l
  induction l with
  | nil => intro c d; simp [total_defense_of]
  | cons a t ih =>
      intro c d
      simp only [List.foldl_cons, ih, total_defense_of, List.map_cons, List.sum_cons]
      ring

/-!
### `get_binary`

```
std::string get_binary(int num, int len)
{
    std::string bin_str = "";
    while(num != 0) { int rem = num % 2; bin_str += '0' + rem; num /= 2; }
    int sz = bin_str.size();
    for(int i = sz; i < len; i++) bin_str += '0';
    for(int i = 0; i < len / 2; i++) std::swap(bin_str[i], bin_str[len - 1 - i]);
    return bin_str;
}
```

The while-loop performs at most `num` iterations (`num` is halved each time),
so `num` itself is a sufficient fuel.  The final swap loop exchanges positions
`i` and `len - 1 - i` for `i < len / 2`, which reverses the first `len`
characters of the string; after the padding loop the string always has at
least `len` characters.
-/

/-- Fuelled version of `get_binary`'s while-loop: emit `'0' + num % 2`
(LSB first) and continue with `num / 2` until `num = 0`. -/
def revBits_go : ℕ → ℕ → List Char
  | 0, _ => []
  | fuel + 1, num =>
      if num = 0 then []
      else Char.ofNat (48 + num % 2) :: revBits_go fuel (num / 2)

/-- The digit string built by `get_binary`'s while-loop, least significant
bit first. -/
def revBits (num : ℕ) : List Char := revBits_go num num

/-- Model of `get_binary`: LSB-first digits, padded with `'0'` up to `len`,
then the first `len` characters reversed (the swap loop). -/
def get_binary (num len : ℕ) : List Char :=
  let bin_str := revBits num
  let sz := bin_str.length
  let padded := bin_str ++ List.replicate (len - sz) (Char.ofNat 48)
  (padded.take len).reverse ++ padded.drop len

/-- Value of an LSB-first `'0'`/`'1'` digit string; inverse of the while-loop
of `get_binary`.  Used only to build witnesses in proofs. -/
def bitsToNat : List Char → ℕ
  | [] => 0
  | c :: rest => (if c = '1' then 1 else 0) + 2 * bitsToNat rest

theorem char48_eq : Char.ofNat 48 = '0' := by decide

theorem char49_eq : Char.ofNat 49 = '1' := by decide

theorem revBits_go_congr :
    ∀ (num f₁ f₂ : ℕ), num ≤ f₁ → num ≤ f₂ → revBits_go f₁ num = revBits_go f₂ num := by
  intro num
  induction num using Nat.strong_induction_on with
  | _ num ih =>
    intro f₁ f₂ h₁ h₂
    match num, f₁, f₂ with
    | 0, 0, 0 => rfl
    | 0, 0, g₂ + 1 => simp [revBits_go]
    | 0, g₁ + 1, 0 => simp [revBits_go]
    | 0, g₁ + 1, g₂ + 1 => simp [revBits_go]
    | n + 1, g₁ + 1, g₂ + 1 =>
        simp only [revBits_go, Nat.succ_ne_zero, if_false]
        have hd : (n + 1) / 2 < n + 1 := Nat.div_lt_self (Nat.succ_pos n) (by omega)
        have hg₁ : (n + 1) / 2 ≤ g₁ := by omega
        have hg₂ : (n + 1) / 2 ≤ g₂ := by omega
        rw [ih ((n + 1) / 2) hd g₁ g₂ hg₁ hg₂]

theorem revBits_zero : revBits 0 = [] := rfl

theorem revBits_succ (num : ℕ) (h : num ≠ 0) :
    revBits num = Char.ofNat (48 + num % 2) :: revBits (num / 2) := by
  obtain ⟨n, rfl⟩ := Nat.exists_eq_succ_of_ne_zero h
  show revBits_go (n + 1) (n + 1) = _
  simp only [revBits_go, Nat.succ_ne_zero, if_false]
  congr 1
  exact revBits_go_congr ((n + 1) / 2) n ((n + 1) / 2)
    (by omega) (Nat.le_refl _)

theorem revBits_mem (num : ℕ) : ∀ c ∈ revBits num, c = '0' ∨ c = '1' := by
  induction num using Nat.strong_induction_on with
  | _ num ih =>
    intro c hc
    by_cases h : num = 0
    · subst h; simp [revBits_zero] at hc
    · rw [revBits_succ num h] at hc
      rcases List.mem_cons.mp hc with h1 | h1
      · subst h1
        rcases Nat.mod_two_eq_zero_or_one num with h2 | h2 <;> simp [h2, char48_eq, char49_eq]
      · exact ih (num / 2) (Nat.div_lt_self (Nat.pos_of_ne_zero h) (by omega)) c h1

theorem revBits_length_le (num k : ℕ) (h : num < 2 ^ k) : (revBits num).length ≤ k := by
  induction k generalizing num with
  | zero =>
      interval_cases num
      simp [revBits_zero]
  | succ k ih =>
      by_cases h0 : num = 0
      · subst h0; simp [revBits_zero]
      · rw [revBits_succ num h0]
        simp only [List.length_cons, Nat.add_le_add_iff_right, Nat.succ_le_succ_iff]
        exact ih (num / 2) (by omega)

theorem bitsToNat_revBits (num : ℕ) : bitsToNat (revBits num) = num := by
  induction num using Nat.strong_induction_on with
  | _ num ih =>
    by_cases h : num = 0
    · subst h; simp [revBits_zero, bitsToNat]
    · rw [revBits_succ num h]
      have hrec := ih (num / 2) (Nat.div_lt_self (Nat.pos_of_ne_zero h) (by omega))
      rcases Nat.mod_two_eq_zero_or_one num with h2 | h2
      · have hch : Char.ofNat (48 + num % 2) = '0' := by rw [h2]
        simp only [bitsToNat, hch, hrec]
        have hne : ¬ (('0' : Char) = '1') := by decide
        rw [if_neg hne]
        omega
      · have hch : Char.ofNat (48 + num % 2) = '1' := by rw [h2]
        simp [bitsToNat, hch, hrec]
        omega

theorem bitsToNat_append_zeros (L : List Char) (k : ℕ) :
    bitsToNat (L ++ List.replicate k '0') = bitsToNat L := by
  induction L with
  | nil =>
      simp only [List.nil_append]
      induction k with
      | zero => rfl
      | succ k ih => simpa [List.replicate_succ, bitsToNat] using ih
  | cons c t ih => simp [bitsToNat, ih]

theorem bitsToNat_lt (L : List Char) : bitsToNat L < 2 ^ L.length := by
  induction L with
  | nil => simp [bitsToNat]
  | cons c t ih =>
      simp only [bitsToNat, List.length_cons, pow_succ]
      by_cases h : c = '1' <;> simp [h] <;> omega

theorem revBits_bitsToNat_pad (L : List Char) (hL : ∀ c ∈ L, c = '0' ∨ c = '1') :
    revBits (bitsToNat L) ++
      List.replicate (L.length - (revBits (bitsToNat L)).length) '0' = L := by
  induction L with
  | nil => simp [bitsToNat, revBits_zero]
  | cons c t ih =>
      have hc : c = '0' ∨ c = '1' := hL c (List.mem_cons_self c t)
      have ht : ∀ x ∈ t, x = '0' ∨ x = '1' := fun x hx => hL x (List.mem_cons_of_mem c hx)
      by_cases h0 : bitsToNat (c :: t) = 0
      · -- all digits are zero: the while-loop emits nothing, padding restores everything
        have hc0 : c = '0' := by
          rcases hc with h | h
          · exact h
          · exfalso; simp [bitsToNat, h] at h0
        have ht0 : bitsToNat t = 0 := by
          simp only [bitsToNat] at h0; omega
        have := ih ht
        rw [ht0, revBits_zero] at this
        simp only [List.nil_append, List.length_nil, Nat.sub_zero] at this
        rw [h0, revBits_zero]
        simp only [List.nil_append, List.length_nil, Nat.sub_zero, List.length_cons,
          List.replicate_succ]
        rw [this, hc0]
      · rw [revBits_succ _ h0]
        have hmod : bitsToNat (c :: t) % 2 = if c = '1' then 1 else 0 := by
          simp only [bitsToNat]
          by_cases h : c = '1' <;> simp [h] <;> omega
        have hdiv : bitsToNat (c :: t) / 2 = bitsToNat t := by
          simp only [bitsToNat]
          by_cases h : c = '1' <;> simp [h] <;> omega
        rw [hmod, hdiv]
        have hch : Char.ofNat (48 + if c = '1' then 1 else 0) = c := by
          rcases hc with h | h <;> simp [h, char48_eq, char49_eq]
        rw [hch]
        simp only [List.length_cons, List.cons_append, List.length_cons]
        have harith : t.length + 1 - ((revBits (bitsToNat t)).length + 1) =
            t.length - (revBits (bitsToNat t)).length := by omega
        rw [harith, ih ht]

theorem getD_eq_of_lt {α : Type} {l : List α} {k : ℕ} (h : k < l.length) (d : α) :
    l.getD k d = l[k] := by
  rw [List.getD_eq_getElem?_getD, List.getElem?_eq_getElem h]
  rfl

theorem getD_replicate_self (m k : ℕ) (c : Char) : (List.replicate m c).getD k c = c := by
  induction m generalizing k with
  | zero => simp
  | succ m ih =>
      cases k with
      | zero => simp [List.replicate_succ]
      | succ k => simpa [List.replicate_succ] using ih k

theorem getD_append_replicate (L : List Char) (m k : ℕ) :
    (L ++ List.replicate m '0').getD k '0' = L.getD k '0' := by
  induction L generalizing k with
  | nil => simpa using getD_replicate_self m k '0'
  | cons c t ih =>
      cases k with
      | zero => rfl
      | succ k => simpa using ih k

theorem revBits_getD (i : ℕ) : ∀ k : ℕ, ((revBits i).getD k '0' = '1') ↔ i.testBit k = true := by
  induction i using Nat.strong_induction_on with
  | _ i ih =>
    intro k
    by_cases h : i = 0
    · subst h
      simp [revBits_zero]
    · rw [revBits_succ i h]
      cases k with
      | zero =>
          rcases Nat.mod_two_eq_zero_or_one i with h2 | h2
          · have hch : Char.ofNat (48 + i % 2) = '0' := by rw [h2]
            simp [hch, Nat.testBit_zero, h2]
          · have hch : Char.ofNat (48 + i % 2) = '1' := by rw [h2]
            simp [hch, Nat.testBit_zero, h2]
      | succ k =>
          have := ih (i / 2) (Nat.div_lt_self (Nat.pos_of_ne_zero h) (by omega)) k
          simpa [Nat.testBit_succ] using this

theorem get_binary_eq_reverse (i n : ℕ) (h : i < 2 ^ n) :
    get_binary i n =
      (revBits i ++ List.replicate (n - (revBits i).length) '0').reverse := by
  have hsz : (revBits i).length ≤ n := revBits_length_le i n h
  show ((revBits i ++ List.replicate (n - (revBits i).length) (Char.ofNat 48)).take n).reverse ++
      (revBits i ++ List.replicate (n - (revBits i).length) (Char.ofNat 48)).drop n = _
  rw [char48_eq]
  have hlen : (revBits i ++ List.replicate (n - (revBits i).length) '0').length = n := by
    simp only [List.length_append, List.length_replicate]
    omega
  rw [List.take_of_length_le (le_of_eq hlen), List.drop_of_length_le (le_of_eq hlen),
    List.append_nil]

theorem get_binary_length (i n : ℕ) (h : i < 2 ^ n) : (get_binary i n).length = n := by
  have hsz : (revBits i).length ≤ n := revBits_length_le i n h
  rw [get_binary_eq_reverse i n h]
  simp [List.length_append, List.length_replicate]
  omega

theorem get_binary_zero (n : ℕ) : get_binary 0 n = List.replicate n '0' := by
  rw [get_binary_eq_reverse 0 n (Nat.pos_pow_of_pos n (by omega))]
  simp [revBits_zero, List.reverse_replicate]

theorem get_binary_getD (n i j : ℕ) (hi : i < 2 ^ n) (hj : j < n) (d : Char) :
    ((get_binary i n).getD j d = '1') ↔ i.testBit (n - 1 - j) = true := by
  have hsz : (revBits i).length ≤ n := revBits_length_le i n hi
  set P : List Char := revBits i ++ List.replicate (n - (revBits i).length) '0' with hP
  have hPlen : P.length = n := by
    simp [hP, List.length_append, List.length_replicate]
    omega
  have hrev : get_binary i n = P.reverse := get_binary_eq_reverse i n hi
  have hjlen : j < P.reverse.length := by simpa [hPlen] using hj
  have hk : P.length - 1 - j < P.length := by omega
  have step1 : (get_binary i n).getD j d = P.reverse[j] := by
    rw [hrev]; exact getD_eq_of_lt hjlen d
  have step2 : P.reverse[j] = P[P.length - 1 - j] := List.getElem_reverse hjlen
  have step3 : P[P.length - 1 - j] = P.getD (P.length - 1 - j) '0' :=
    (getD_eq_of_lt hk '0').symm
  have step4 : P.getD (P.length - 1 - j) '0' = (revBits i).getD (P.length - 1 - j) '0' :=
    getD_append_replicate _ _ _
  rw [step1, step2, step3, step4, hPlen]
  exact revBits_getD i (n - 1 - j)

theorem get_binary_inj (n i₁ i₂ : ℕ) (h₁ : i₁ < 2 ^ n) (h₂ : i₂ < 2 ^ n)
    (he : get_binary i₁ n = get_binary i₂ n) : i₁ = i₂ := by
  have e1 := congrArg List.reverse he
  rw [get_binary_eq_reverse i₁ n h₁, get_binary_eq_reverse i₂ n h₂,
    List.reverse_reverse, List.reverse_reverse] at e1
  have e2 := congrArg bitsToNat e1
  rwa [bitsToNat_append_zeros, bitsToNat_append_zeros,
    bitsToNat_revBits, bitsToNat_revBits] at e2

theorem get_binary_surj (n : ℕ) (bs : List Char) (hlen : bs.length = n)
    (hbin : ∀ c ∈ bs, c = '0' ∨ c = '1') :
    bitsToNat bs.reverse < 2 ^ n ∧ get_binary (bitsToNat bs.reverse) n = bs := by
  have hlt : bitsToNat bs.reverse < 2 ^ n := by
    have := bitsToNat_lt bs.reverse
    rwa [List.length_reverse, hlen] at this
  refine ⟨hlt, ?_⟩
  have hbinrev : ∀ c ∈ bs.reverse, c = '0' ∨ c = '1' := by
    intro c hc
    exact hbin c (List.mem_reverse.mp hc)
  have hpad := revBits_bitsToNat_pad bs.reverse hbinrev
  rw [List.length_reverse, hlen] at hpad
  rw [get_binary_eq_reverse _ n hlt, hpad, List.reverse_reverse]

/-!
### `greedy_max_defense`

```
while(!source.empty())
{
    int loop_pos = 0; double max_ratio = 0; int optimal_choice_pos = 0;
    for (auto& armor : source) { ... }           // scan for the best ratio
    if(current_cost + source[optimal_choice_pos]->cost() <= total_cost) { accept }
    source.erase(source.begin() + optimal_choice_pos);
}
```

Each iteration of the while-loop removes exactly one element from `source`,
so the loop runs exactly `source.size()` times; that count is the fuel.
-/

/-- The ranking key of the greedy scan: `armor->defense() / armor->cost()`. -/
def ratio (a : ArmorItem) : ℚ := a.defense / a.cost

/-- The scan for `optimal_choice_pos`: state is
`(loop_pos, max_ratio, optimal_choice_pos)`; the first element initializes
`max_ratio`, later elements replace it only on a strictly greater ratio. -/
def scanBest : List ArmorItem → ℕ → ℚ → ℕ → ℕ
  | [], _, _, best => best
  | armor :: rest, loop_pos, max_ratio, best =>
      if loop_pos = 0 then scanBest rest (loop_pos + 1) (ratio armor) loop_pos
      else if max_ratio < ratio armor then scanBest rest (loop_pos + 1) (ratio armor) loop_pos
      else scanBest rest (loop_pos + 1) max_ratio best

/-- `optimal_choice_pos` found by one pass over `source`. -/
def bestIdx (source : List ArmorItem) : ℕ := scanBest source 0 0 0

/-- The while-loop of `greedy_max_defense`, with fuel equal to the exact
number of iterations (`source.length`). -/
def greedy_go : ℕ → List ArmorItem → ℚ → ℚ → List ArmorItem → List ArmorItem
  | 0, _, _, _, output => output
  | fuel + 1, source, current_cost, total_cost, output =>
      match source with
      | [] => output
      | a :: rest =>
          let p := bestIdx (a :: rest)
          let chosen := (a :: rest).getD p dummyArmor
          if current_cost + chosen.cost ≤ total_cost then
            greedy_go fuel ((a :: rest).eraseIdx p) (current_cost + chosen.cost) total_cost
              (output ++ [chosen])
          else
            greedy_go fuel ((a :: rest).eraseIdx p) current_cost total_cost output

/-- `greedy_max_defense(armors, total_cost)`. -/
def greedy_max_defense (armors : List ArmorItem) (total_cost : ℚ) : List ArmorItem :=
  greedy_go armors.length armors 0 total_cost []

/-!
### `exhaustive_max_defense`
-/

/-- Two's-complement wraparound to the range of a 32-bit signed `int`. -/
def intWrap (x : ℤ) : ℤ := (x + 2 ^ 31) % 2 ^ 32 - 2 ^ 31

/-- The power-of-two loop `int pn = 1; for(i < n) pn *= 2;` of
`exhaustive_max_defense`, in 32-bit signed `int` arithmetic (the overflow
that occurs from `n = 31` on is modelled as two's-complement wraparound). -/
def pow_int32 : ℕ → ℤ
  | 0 => 1
  | n + 1 => intWrap (2 * pow_int32 n)

/-- Cost of the subset selected by the bitmask string `bs`:
`for(j < n) if(bitmask_string[j] == '1') current_cost += armors[j]->cost();`. -/
def subset_cost (armors : List ArmorItem) (bs : List Char) : ℚ :=
  (((List.range armors.length).filter fun j => bs.getD j (Char.ofNat 0) == '1').map
    fun j => (armors.getD j dummyArmor).cost).sum

/-- Defense of the subset selected by the bitmask string `bs` (same loop). -/
def subset_defense (armors : List ArmorItem) (bs : List Char) : ℚ :=
  (((List.range armors.length).filter fun j => bs.getD j (Char.ofNat 0) == '1').map
    fun j => (armors.getD j dummyArmor).defense).sum

/-- One iteration of the enumeration loop; the state is
`(best_defense, best_set)`, initially `(-1.0, "")`. -/
def exhaustive_step (armors : List ArmorItem) (total_cost : ℚ)
    (st : ℚ × List Char) (i : ℕ) : ℚ × List Char :=
  let bitmask_string := get_binary i armors.length
  let current_cost := subset_cost armors bitmask_string
  let current_defense := subset_defense armors bitmask_string
  if current_cost ≤ total_cost ∧ st.1 < current_defense then
    (current_defense, bitmask_string)
  else st

/-- The enumeration loop run over `i = 0, 1, ..., m - 1`. -/
def exhaustive_run (armors : List ArmorItem) (total_cost : ℚ) (m : ℕ) : ℚ × List Char :=
  (List.range m).foldl (exhaustive_step armors total_cost) (-1, [])

/-- The output loop:
`for(i < n) if(best_set[i] == '1') output.push_back(armors[i]);`. -/
def buildOutput (armors : List ArmorItem) (best_set : List Char) : List ArmorItem :=
  ((List.range armors.length).filter fun j => best_set.getD j (Char.ofNat 0) == '1').map
    fun j => armors.getD j dummyArmor

/-- Body of `exhaustive_max_defense` after `assert(n < 64)`.  The loop
`for(int i = 0; i < pn; i++)` executes `max(pn, 0)` iterations, i.e.
`pn.toNat` of them. -/
def exhaustive_body (armors : List ArmorItem) (total_cost : ℚ) : List ArmorItem :=
  buildOutput armors (exhaustive_run armors total_cost (pow_int32 armors.length).toNat).2

/-- `exhaustive_max_defense(armors, total_cost)`; the failure of
`assert(n < 64)` is modelled as `none`. -/
def exhaustive_max_defense (armors : List ArmorItem) (total_cost : ℚ) :
    Option (List ArmorItem) :=
  if armors.length < 64 then some (exhaustive_body armors total_cost) else none

/-- The set of item indices the exhaustive loop reads out of bitmask `i`:
item `j` is selected iff character `j` of `get_binary i n` is `'1'`. -/
def decode_subset (i n : ℕ) : Finset ℕ :=
  (Finset.range n).filter fun j => (get_binary i n).getD j (Char.ofNat 0) = '1'

/-- Structural formulation of the selection performed by `buildOutput`;
used as the bridge between bitmask strings and sublists. -/
def selectMask : List ArmorItem → List Char → List ArmorItem
  | [], _ => []
  | _ :: _, [] => []
  | a :: armors, c :: cs => if c == '1' then a :: selectMask armors cs else selectMask armors cs

theorem getD_append_left {α : Type} (P t : List α) (q : ℕ) (d : α) (h : q < P.length) :
    (P ++ t).getD q d = P.getD q d := by
  induction P generalizing q with
  | nil => simp at h
  | cons a P ih =>
      cases q with
      | zero => rfl
      | succ q => simpa using ih q (by simpa using h)

theorem getD_append_middle {α : Type} (P t : List α) (x : α) (d : α) :
    (P ++ x :: t).getD P.length d = x := by
  induction P with
  | nil => rfl
  | cons a P ih => simpa using ih

/-- `p` is the position the greedy scan must report: it attains the maximum
ratio in `l`, and every strictly earlier position has a strictly smaller
ratio (so on ties the first position wins). -/
def IsFirstMaxRatio (l : List ArmorItem) (p : ℕ) : Prop :=
  p < l.length ∧
  (∀ q, q < l.length → ratio (l.getD q dummyArmor) ≤ ratio (l.getD p dummyArmor)) ∧
  (∀ q, q < p → ratio (l.getD q dummyArmor) < ratio (l.getD p dummyArmor))

theorem IsFirstMaxRatio.unique {l : List ArmorItem} {p p' : ℕ}
    (h : IsFirstMaxRatio l p) (h' : IsFirstMaxRatio l p') : p = p' := by
  rcases h with ⟨hp, hub, hst⟩
  rcases h' with ⟨hp', hub', hst'⟩
  rcases Nat.lt_trichotomy p p' with hlt | heq | hgt
  · exact absurd (hub p' hp') (not_le_of_lt (hst' p hlt))
  · exact heq
  · exact absurd (hub' p hp) (not_le_of_lt (hst p' hgt))

theorem scanBest_spec (rest : List ArmorItem) :
    ∀ (P : List ArmorItem) (max_ratio : ℚ) (best : ℕ),
      P ≠ [] → best < P.length →
      max_ratio = ratio (P.getD best dummyArmor) →
      (∀ q, q < P.length → ratio ((P ++ rest).getD q dummyArmor) ≤ max_ratio) →
      (∀ q, q < best → ratio ((P ++ rest).getD q dummyArmor) < max_ratio) →
      IsFirstMaxRatio (P ++ rest) (scanBest rest P.length max_ratio best) := by
  induction rest with
  | nil =>
      intro P max_ratio best hP hb hmax hub hst
      rw [List.append_nil] at hub hst ⊢
      rw [hmax] at hub hst
      exact ⟨hb, hub, hst⟩
  | cons a rest ih =>
      intro P max_ratio best hP hb hmax hub hst
      have hlen0 : P.length ≠ 0 := by
        intro h
        exact hP (List.length_eq_zero.mp h)
      have hassoc : (P ++ [a]) ++ rest = P ++ a :: rest := by
        rw [List.append_assoc]
        rfl
      have hgetA : (P ++ a :: rest).getD P.length dummyArmor = a :=
        getD_append_middle P rest a dummyArmor
      show IsFirstMaxRatio (P ++ a :: rest)
        (if P.length = 0 then scanBest rest (P.length + 1) (ratio a) P.length
         else if max_ratio < ratio a then scanBest rest (P.length + 1) (ratio a) P.length
         else scanBest rest (P.length + 1) max_ratio best)
      rw [if_neg hlen0]
      by_cases hcmp : max_ratio < ratio a
      · rw [if_pos hcmp]
        have hres := ih (P ++ [a]) (ratio a) P.length (by simp)
          (by simp)
          (by rw [getD_append_middle P [] a dummyArmor])
          ?_ ?_
        · rw [hassoc] at hres
          simpa [List.length_append] using hres
        · intro q hq
          rw [hassoc]
          simp only [List.length_append, List.length_singleton] at hq
          rcases Nat.lt_or_ge q P.length with hqP | hqP
          · exact le_of_lt (lt_of_le_of_lt (hub q hqP) hcmp)
          · have hqeq : q = P.length := by omega
            rw [hqeq, hgetA]
        · intro q hq
          rw [hassoc]
          exact lt_of_le_of_lt (hub q hq) hcmp
      · rw [if_neg hcmp]
        have hres := ih (P ++ [a]) max_ratio best (by simp)
          (by simp only [List.length_append, List.length_singleton]; omega)
          (by rw [getD_append_left P [a] best dummyArmor hb]; exact hmax)
          ?_ ?_
        · rw [hassoc] at hres
          simpa [List.length_append] using hres
        · intro q hq
          rw [hassoc]
          simp only [List.length_append, List.length_singleton] at hq
          rcases Nat.lt_or_ge q P.length with hqP | hqP
          · exact hub q hqP
          · have hqeq : q = P.length := by omega
            rw [hqeq, hgetA]
            exact le_of_not_lt hcmp
        · intro q hq
          rw [hassoc]
          exact hst q hq

theorem bestIdx_spec (l : List ArmorItem) (h : l ≠ []) : IsFirstMaxRatio l (bestIdx l) := by
  match l with
  | a :: rest =>
      have h0 : bestIdx (a :: rest) = scanBest rest 1 (ratio a) 0 := by
        simp [bestIdx, scanBest]
      rw [h0]
      have := scanBest_spec rest [a] (ratio a) 0 (by simp) (by simp) rfl
        (by intro q hq
            simp only [List.length_singleton] at hq
            interval_cases q
            simp)
        (by intro q hq; omega)
      simpa using this

theorem bestIdx_lt (l : List ArmorItem) (h : l ≠ []) : bestIdx l < l.length :=
  (bestIdx_spec l h).1

/-- Modelled on the spec's wording of the greedy choice: the first index of
the working list whose value-to-cost ratio is maximal among all items still
in the list.  This is the reference formulation that claim C4 compares
against the scan actually implemented by the code. -/
def specBestIdx (l : List ArmorItem) : ℕ :=
  l.findIdx fun a => l.all fun b => decide (ratio b ≤ ratio a)

theorem specBestIdx_spec (l : List ArmorItem) (h : l ≠ []) :
    IsFirstMaxRatio l (specBestIdx l) := by
  obtain ⟨hp, hub, hst⟩ := bestIdx_spec l h
  have hmem : l.getD (bestIdx l) dummyArmor ∈ l := by
    rw [getD_eq_of_lt hp]
    exact List.getElem_mem hp
  have hpred : (l.all fun b => decide (ratio b ≤ ratio (l.getD (bestIdx l) dummyArmor))) = true := by
    simp only [List.all_eq_true, decide_eq_true_eq]
    intro b hb
    obtain ⟨q, hq, rfl⟩ := List.mem_iff_getElem.mp hb
    have hq' := hub q hq
    rwa [getD_eq_of_lt hq] at hq'
  have hex : ∃ x ∈ l, (fun a => l.all fun b => decide (ratio b ≤ ratio a)) x = true :=
    ⟨l.getD (bestIdx l) dummyArmor, hmem, hpred⟩
  have hslt : specBestIdx l < l.length := List.findIdx_lt_length_of_exists hex
  have hsp : (l.all fun b => decide (ratio b ≤ ratio l[specBestIdx l])) = true :=
    @List.findIdx_getElem _ _ l hslt
  simp only [List.all_eq_true, decide_eq_true_eq] at hsp
  refine ⟨hslt, ?_, ?_⟩
  · intro q hq
    rw [getD_eq_of_lt hq, getD_eq_of_lt hslt]
    exact hsp _ (List.getElem_mem hq)
  · intro q hq
    have hql : q < l.length := lt_trans hq hslt
    have hfail := @List.not_of_lt_findIdx _ (fun a => l.all fun b => decide (ratio b ≤ ratio a))
      l q hq
    simp only [List.all_eq_false, decide_eq_true_eq, not_le] at hfail
    obtain ⟨b, hbmem, hblt⟩ := hfail
    rw [getD_eq_of_lt hql, getD_eq_of_lt hslt]
    exact lt_of_lt_of_le hblt (hsp b hbmem)

theorem specBestIdx_eq_bestIdx (l : List ArmorItem) (h : l ≠ []) :
    specBestIdx l = bestIdx l :=
  IsFirstMaxRatio.unique (specBestIdx_spec l h) (bestIdx_spec l h)

/-- The reference greedy process exactly as the spec words it, differing from
`greedy_go` only in using `specBestIdx` for the choice. -/
def greedySpec_go : ℕ → List ArmorItem → ℚ → ℚ → List ArmorItem → List ArmorItem
  | 0, _, _, _, output => output
  | fuel + 1, source, current_cost, budget, output =>
      match source with
      | [] => output
      | a :: rest =>
          let p := specBestIdx (a :: rest)
          let chosen := (a :: rest).getD p dummyArmor
          if current_cost + chosen.cost ≤ budget then
            greedySpec_go fuel ((a :: rest).eraseIdx p) (current_cost + chosen.cost) budget
              (output ++ [chosen])
          else
            greedySpec_go fuel ((a :: rest).eraseIdx p) current_cost budget output

/-- The spec's reference greedy process, run like `greedy_max_defense`. -/
def greedySpec (armors : List ArmorItem) (budget : ℚ) : List ArmorItem :=
  greedySpec_go armors.length armors 0 budget []

theorem greedy_go_eq_specGo :
    ∀ (fuel : ℕ) (source : List ArmorItem) (cc b : ℚ) (out : List ArmorItem),
      greedy_go fuel source cc b out = greedySpec_go fuel source cc b out := by
  intro fuel
  induction fuel with
  | zero => intro source cc b out; rfl
  | succ fuel ih =>
      intro source cc b out
      match source with
      | [] => rfl
      | a :: rest =>
          have hne : (a :: rest) ≠ [] := by simp
          have heq : specBestIdx (a :: rest) = bestIdx (a :: rest) :=
            specBestIdx_eq_bestIdx _ hne
          simp only [greedy_go, greedySpec_go, heq]
          by_cases hfit : cc + ((a :: rest).getD (bestIdx (a :: rest)) dummyArmor).cost ≤ b
          · rw [if_pos hfit, if_pos hfit, ih]
          · rw [if_neg hfit, if_neg hfit, ih]

theorem total_cost_append (l₁ l₂ : List ArmorItem) :
    total_cost_of (l₁ ++ l₂) = total_cost_of l₁ + total_cost_of l₂ := by
  simp [total_cost_of]

theorem total_defense_append (l₁ l₂ : List ArmorItem) :
    total_defense_of (l₁ ++ l₂) = total_defense_of l₁ + total_defense_of l₂ := by
  simp [total_defense_of]

theorem greedy_go_cost :
    ∀ (fuel : ℕ) (source : List ArmorItem) (cc b : ℚ) (out : List ArmorItem),
      total_cost_of out = cc → cc ≤ b →
      total_cost_of (greedy_go fuel source cc b out) ≤ b := by
  intro fuel
  induction fuel with
  | zero =>
      intro source cc b out hout hcc
      simpa [greedy_go, hout] using hcc
  | succ fuel ih =>
      intro source cc b out hout hcc
      match source with
      | [] => simpa [greedy_go, hout] using hcc
      | a :: rest =>
          simp only [greedy_go]
          by_cases hfit : cc + ((a :: rest).getD (bestIdx (a :: rest)) dummyArmor).cost ≤ b
          · rw [if_pos hfit]
            refine ih _ _ _ _ ?_ hfit
            rw [total_cost_append, hout]
            simp [total_cost_of]
          · rw [if_neg hfit]
            exact ih _ _ _ _ hout hcc

theorem getD_cons_eraseIdx_perm (l : List ArmorItem) (p : ℕ) (h : p < l.length) :
    List.Perm (l.getD p dummyArmor :: l.eraseIdx p) l := by
  induction l generalizing p with
  | nil => simp at h
  | cons a t ih =>
      cases p with
      | zero => simp
      | succ p =>
          have hp : p < t.length := by simpa using h
          show List.Perm (t.getD p dummyArmor :: a :: t.eraseIdx p) (a :: t)
          exact (List.Perm.swap a (t.getD p dummyArmor) (t.eraseIdx p)).trans ((ih p hp).cons a)

theorem greedy_go_subperm :
    ∀ (fuel : ℕ) (source : List ArmorItem) (cc b : ℚ) (out : List ArmorItem),
      List.Subperm (greedy_go fuel source cc b out) (out ++ source) := by
  intro fuel
  induction fuel with
  | zero =>
      intro source cc b out
      exact (List.sublist_append_left out source).subperm
  | succ fuel ih =>
      intro source cc b out
      match source with
      | [] => exact (List.sublist_append_left out []).subperm
      | a :: rest =>
          simp only [greedy_go]
          have hp : bestIdx (a :: rest) < (a :: rest).length := bestIdx_lt _ (by simp)
          have hperm : List.Perm
              ((a :: rest).getD (bestIdx (a :: rest)) dummyArmor ::
                (a :: rest).eraseIdx (bestIdx (a :: rest))) (a :: rest) :=
            getD_cons_eraseIdx_perm _ _ hp
          by_cases hfit : cc + ((a :: rest).getD (bestIdx (a :: rest)) dummyArmor).cost ≤ b
          · rw [if_pos hfit]
            refine (ih _ _ _ _).trans ?_
            have hre : (out ++ [(a :: rest).getD (bestIdx (a :: rest)) dummyArmor]) ++
                (a :: rest).eraseIdx (bestIdx (a :: rest)) =
                out ++ ((a :: rest).getD (bestIdx (a :: rest)) dummyArmor ::
                  (a :: rest).eraseIdx (bestIdx (a :: rest))) := by
              simp [List.append_assoc]
            rw [hre]
            exact (hperm.append_left out).subperm
          · rw [if_neg hfit]
            refine (ih _ _ _ _).trans ?_
            exact ((List.eraseIdx_sublist (a :: rest) (bestIdx (a :: rest))).append_left
              out).subperm

theorem greedy_go_reject_all :
    ∀ (fuel : ℕ) (source : List ArmorItem) (b : ℚ) (out : List ArmorItem),
      (∀ a ∈ source, 0 < a.cost) → b ≤ 0 →
      greedy_go fuel source 0 b out = out := by
  intro fuel
  induction fuel with
  | zero => intro source b out hpos hb; rfl
  | succ fuel ih =>
      intro source b out hpos hb
      match source with
      | [] => rfl
      | a :: rest =>
          simp only [greedy_go]
          have hp : bestIdx (a :: rest) < (a :: rest).length := bestIdx_lt _ (by simp)
          have hmem : (a :: rest).getD (bestIdx (a :: rest)) dummyArmor ∈ a :: rest := by
            rw [getD_eq_of_lt hp]
            exact List.getElem_mem hp
          have hcpos : 0 < ((a :: rest).getD (bestIdx (a :: rest)) dummyArmor).cost :=
            hpos _ hmem
          have hfit : ¬ (0 + ((a :: rest).getD (bestIdx (a :: rest)) dummyArmor).cost ≤ b) := by
            intro hle
            rw [zero_add] at hle
            exact absurd (lt_of_lt_of_le hcpos hle) (not_lt_of_le hb)
          rw [if_neg hfit]
          refine ih _ _ _ ?_ hb
          intro x hx
          exact hpos x ((List.eraseIdx_sublist (a :: rest) (bestIdx (a :: rest))).subset hx)

theorem greedy_feasible (armors : List ArmorItem) (b : ℚ) (hb : 0 ≤ b) :
    total_cost_of (greedy_max_defense armors b) ≤ b :=
  greedy_go_cost armors.length armors 0 b [] rfl hb

theorem intWrap_eq_self {x : ℤ} (h₁ : -(2 ^ 31) ≤ x) (h₂ : x < 2 ^ 31) : intWrap x = x := by
  unfold intWrap
  rw [Int.emod_eq_of_lt (by omega) (by omega)]
  omega

theorem pow_int32_eq (n : ℕ) (h : n ≤ 30) : pow_int32 n = 2 ^ n := by
  induction n with
  | zero => rfl
  | succ n ih =>
      have hn : n ≤ 30 := by omega
      show intWrap (2 * pow_int32 n) = 2 ^ (n + 1)
      rw [ih hn]
      have h2 : (2 : ℤ) * 2 ^ n = 2 ^ (n + 1) := by ring
      rw [h2]
      have hle : (2 : ℤ) ^ (n + 1) ≤ 2 ^ 30 := pow_le_pow_right (by norm_num) (by omega)
      have hlt : (2 : ℤ) ^ (n + 1) < 2 ^ 31 := lt_of_le_of_lt hle (by norm_num)
      exact intWrap_eq_self (le_trans (by norm_num) (pow_nonneg (by norm_num) _)) hlt

theorem pow_int32_31 : pow_int32 31 = -(2 ^ 31) := by
  show intWrap (2 * pow_int32 30) = -(2 ^ 31)
  rw [pow_int32_eq 30 (by omega)]
  unfold intWrap
  norm_num

theorem pow_int32_ge32 (n : ℕ) (h : 32 ≤ n) : pow_int32 n = 0 := by
  obtain ⟨k, rfl⟩ : ∃ k, n = 32 + k := ⟨n - 32, by omega⟩
  clear h
  induction k with
  | zero =>
      show intWrap (2 * pow_int32 31) = 0
      rw [pow_int32_31]
      unfold intWrap
      norm_num
  | succ k ih =>
      show intWrap (2 * pow_int32 (32 + k)) = 0
      rw [ih]
      unfold intWrap
      norm_num

theorem pow_int32_toNat_zero (n : ℕ) (h : 31 ≤ n) : (pow_int32 n).toNat = 0 := by
  rcases eq_or_lt_of_le h with h31 | h32
  · rw [← h31, pow_int32_31]
    rfl
  · rw [pow_int32_ge32 n (by omega)]
    rfl

theorem pow_int32_toNat_eq (n : ℕ) (h : n ≤ 30) : (pow_int32 n).toNat = 2 ^ n := by
  rw [pow_int32_eq n h]
  have hcast : (2 : ℤ) ^ n = ((2 ^ n : ℕ) : ℤ) := by push_cast; ring
  rw [hcast, Int.toNat_ofNat]

theorem total_cost_buildOutput (armors : List ArmorItem) (bs : List Char) :
    total_cost_of (buildOutput armors bs) = subset_cost armors bs := by
  unfold total_cost_of buildOutput subset_cost
  rw [List.map_map]
  rfl

theorem total_defense_buildOutput (armors : List ArmorItem) (bs : List Char) :
    total_defense_of (buildOutput armors bs) = subset_defense armors bs := by
  unfold total_defense_of buildOutput subset_defense
  rw [List.map_map]
  rfl

theorem subset_cost_of_no_one (armors : List ArmorItem) (bs : List Char)
    (h : ∀ j, bs.getD j (Char.ofNat 0) ≠ '1') :
    subset_cost armors bs = 0 := by
  unfold subset_cost
  have hfil : (List.range armors.length).filter
      (fun j => bs.getD j (Char.ofNat 0) == '1') = [] := by
    rw [List.filter_eq_nil_iff]
    intro j hj
    simpa using h j
  rw [hfil]
  rfl

theorem subset_defense_of_no_one (armors : List ArmorItem) (bs : List Char)
    (h : ∀ j, bs.getD j (Char.ofNat 0) ≠ '1') :
    subset_defense armors bs = 0 := by
  unfold subset_defense
  have hfil : (List.range armors.length).filter
      (fun j => bs.getD j (Char.ofNat 0) == '1') = [] := by
    rw [List.filter_eq_nil_iff]
    intro j hj
    simpa using h j
  rw [hfil]
  rfl

theorem buildOutput_of_no_one (armors : List ArmorItem) (bs : List Char)
    (h : ∀ j, bs.getD j (Char.ofNat 0) ≠ '1') :
    buildOutput armors bs = [] := by
  unfold buildOutput
  have hfil : (List.range armors.length).filter
      (fun j => bs.getD j (Char.ofNat 0) == '1') = [] := by
    rw [List.filter_eq_nil_iff]
    intro j hj
    simpa using h j
  rw [hfil]
  rfl

theorem getD_nil_ne_one (j : ℕ) : ([] : List Char).getD j (Char.ofNat 0) ≠ '1' := by
  simp only [List.getD_nil]
  decide

theorem getD_replicate_zero_ne_one (n j : ℕ) :
    (List.replicate n '0').getD j (Char.ofNat 0) ≠ '1' := by
  rcases Nat.lt_or_ge j n with h | h
  · have : (List.replicate n '0').getD j (Char.ofNat 0) = '0' := by
      rw [getD_eq_of_lt (by simpa using h)]
      simp
    rw [this]
    decide
  · have : (List.replicate n '0').getD j (Char.ofNat 0) = Char.ofNat 0 := by
      rw [List.getD_eq_getElem?_getD, List.getElem?_eq_none (by simpa using h)]
      rfl
    rw [this]
    decide

theorem selectMask_sublist (armors : List ArmorItem) (bs : List Char) :
    (selectMask armors bs).Sublist armors := by
  induction armors generalizing bs with
  | nil => simp [selectMask]
  | cons a t ih =>
      cases bs with
      | nil => simp [selectMask]
      | cons c cs =>
          show (if c == '1' then a :: selectMask t cs else selectMask t cs).Sublist (a :: t)
          by_cases hc : c == '1'
          · rw [if_pos hc]
            exact (ih cs).cons₂ a
          · rw [if_neg hc]
            exact (ih cs).cons a

theorem sublist_exists_mask (sub armors : List ArmorItem) (h : sub.Sublist armors) :
    ∃ bs : List Char, bs.length = armors.length ∧ (∀ c ∈ bs, c = '0' ∨ c = '1') ∧
      selectMask armors bs = sub := by
  induction h with
  | slnil => exact ⟨[], rfl, by simp, rfl⟩
  | cons a h ih =>
      obtain ⟨bs, h1, h2, h3⟩ := ih
      refine ⟨'0' :: bs, by simp [h1], ?_, ?_⟩
      · intro c hc
        rcases List.mem_cons.mp hc with hc | hc
        · exact Or.inl hc
        · exact h2 c hc
      · simpa [selectMask] using h3
  | cons₂ a h ih =>
      obtain ⟨bs, h1, h2, h3⟩ := ih
      refine ⟨'1' :: bs, by simp [h1], ?_, ?_⟩
      · intro c hc
        rcases List.mem_cons.mp hc with hc | hc
        · exact Or.inr hc
        · exact h2 c hc
      · simpa [selectMask] using h3

theorem buildOutput_cons (a : ArmorItem) (t : List ArmorItem) (c : Char) (cs : List Char) :
    buildOutput (a :: t) (c :: cs) =
      (if c == '1' then [a] else []) ++ buildOutput t cs := by
  unfold buildOutput
  rw [List.length_cons, List.range_succ_eq_map, List.filter_cons, List.filter_map]
  by_cases hc : ((c :: cs).getD 0 (Char.ofNat 0) == '1') = true
  · rw [if_pos hc, if_pos (show (c == '1') = true from hc)]
    simp only [List.map_cons, List.map_map]
    show _ :: _ = _ ++ _
    rw [List.singleton_append]
    rfl
  · rw [if_neg hc, if_neg (show ¬ ((c == '1') = true) from hc)]
    simp only [List.map_map]
    show _ = ([] : List ArmorItem) ++ _
    rw [List.nil_append]
    rfl

theorem buildOutput_eq_selectMask (armors : List ArmorItem) (bs : List Char) :
    buildOutput armors bs = selectMask armors bs := by
  induction armors generalizing bs with
  | nil => cases bs <;> rfl
  | cons a t ih =>
      cases bs with
      | nil =>
          rw [buildOutput_of_no_one _ _ getD_nil_ne_one]
          rfl
      | cons c cs =>
          rw [buildOutput_cons, ih cs]
          show _ = (if c == '1' then a :: selectMask t cs else selectMask t cs)
          by_cases hc : (c == '1') = true
          · rw [if_pos hc, if_pos hc, List.singleton_append]
          · rw [if_neg hc, if_neg hc, List.nil_append]

theorem exhaustive_run_zero (armors : List ArmorItem) (b : ℚ) :
    exhaustive_run armors b 0 = (-1, []) := rfl

theorem exhaustive_run_succ (armors : List ArmorItem) (b : ℚ) (m : ℕ) :
    exhaustive_run armors b (m + 1) =
      exhaustive_step armors b (exhaustive_run armors b m) m := by
  unfold exhaustive_run
  rw [List.range_succ, List.foldl_append]
  rfl

theorem subset_cost_zero_mask (armors : List ArmorItem) :
    subset_cost armors (get_binary 0 armors.length) = 0 := by
  rw [get_binary_zero]
  exact subset_cost_of_no_one _ _ (getD_replicate_zero_ne_one _)

theorem subset_defense_zero_mask (armors : List ArmorItem) :
    subset_defense armors (get_binary 0 armors.length) = 0 := by
  rw [get_binary_zero]
  exact subset_defense_of_no_one _ _ (getD_replicate_zero_ne_one _)

theorem exhaustive_run_spec (armors : List ArmorItem) (b : ℚ) (hb : 0 ≤ b) :
    ∀ m : ℕ, 1 ≤ m →
      ∃ iStar : ℕ, iStar < m ∧
        subset_cost armors (get_binary iStar armors.length) ≤ b ∧
        exhaustive_run armors b m =
          (subset_defense armors (get_binary iStar armors.length),
            get_binary iStar armors.length) ∧
        (∀ i, i < m → subset_cost armors (get_binary i armors.length) ≤ b →
          subset_defense armors (get_binary i armors.length) ≤
            subset_defense armors (get_binary iStar armors.length)) ∧
        (∀ i, i < iStar → subset_cost armors (get_binary i armors.length) ≤ b →
          subset_defense armors (get_binary i armors.length) <
            subset_defense armors (get_binary iStar armors.length)) := by
  intro m
  induction m with
  | zero => intro h; omega
  | succ m ih =>
      intro _
      by_cases hm : m = 0
      · subst hm
        refine ⟨0, by omega, ?_, ?_, ?_, ?_⟩
        · rw [subset_cost_zero_mask]; exact hb
        · rw [exhaustive_run_succ, exhaustive_run_zero]
          unfold exhaustive_step
          rw [if_pos]
          constructor
          · rw [subset_cost_zero_mask]; exact hb
          · rw [subset_defense_zero_mask]; norm_num
        · intro i hi hf
          interval_cases i
          exact le_refl _
        · intro i hi hf; omega
      · have hm1 : 1 ≤ m := by omega
        obtain ⟨iStar, hlt, hfeas, hrun, hub, hst⟩ := ih hm1
        rw [exhaustive_run_succ, hrun]
        unfold exhaustive_step
        by_cases hcond : subset_cost armors (get_binary m armors.length) ≤ b ∧
            subset_defense armors (get_binary iStar armors.length) <
              subset_defense armors (get_binary m armors.length)
        · rw [if_pos hcond]
          refine ⟨m, by omega, hcond.1, rfl, ?_, ?_⟩
          · intro i hi hf
            rcases Nat.lt_or_ge i m with him | him
            · exact le_of_lt (lt_of_le_of_lt (hub i him hf) hcond.2)
            · have heq : i = m := by omega
              subst heq
              exact le_refl _
          · intro i hi hf
            exact lt_of_le_of_lt (hub i hi hf) hcond.2
        · rw [if_neg hcond]
          refine ⟨iStar, by omega, hfeas, rfl, ?_, hst⟩
          intro i hi hf
          rcases Nat.lt_or_ge i m with him | him
          · exact hub i him hf
          · have heq : i = m := by omega
            subst heq
            rcases not_and_or.mp hcond with hc | hc
            · exact absurd hf hc
            · exact le_of_not_lt hc

theorem exhaustive_body_spec (armors : List ArmorItem) (b : ℚ)
    (hn : armors.length ≤ 30) (hb : 0 ≤ b) :
    ∃ iStar : ℕ, iStar < 2 ^ armors.length ∧
      subset_cost armors (get_binary iStar armors.length) ≤ b ∧
      exhaustive_body armors b = buildOutput armors (get_binary iStar armors.length) ∧
      (∀ i, i < 2 ^ armors.length → subset_cost armors (get_binary i armors.length) ≤ b →
        subset_defense armors (get_binary i armors.length) ≤
          subset_defense armors (get_binary iStar armors.length)) ∧
      (∀ i, i < iStar → subset_cost armors (get_binary i armors.length) ≤ b →
        subset_defense armors (get_binary i armors.length) <
          subset_defense armors (get_binary iStar armors.length)) := by
  obtain ⟨iStar, hlt, hfeas, hrun, hub, hst⟩ :=
    exhaustive_run_spec armors b hb (2 ^ armors.length) Nat.one_le_two_pow
  refine ⟨iStar, hlt, hfeas, ?_, hub, hst⟩
  unfold exhaustive_body
  rw [pow_int32_toNat_eq _ hn, hrun]

theorem exhaustive_optimal (armors : List ArmorItem) (b : ℚ)
    (hn : armors.length ≤ 30) (hb : 0 ≤ b) :
    total_cost_of (exhaustive_body armors b) ≤ b ∧
    ∀ sub : List ArmorItem, sub.Sublist armors → total_cost_of sub ≤ b →
      total_defense_of sub ≤ total_defense_of (exhaustive_body armors b) := by
  obtain ⟨iStar, hlt, hfeas, hbody, hub, hst⟩ := exhaustive_body_spec armors b hn hb
  constructor
  · rw [hbody, total_cost_buildOutput]
    exact hfeas
  · intro sub hsub hsubc
    obtain ⟨bs, hblen, hbbin, hbsel⟩ := sublist_exists_mask sub armors hsub
    obtain ⟨hblt, hbget⟩ := get_binary_surj armors.length bs hblen hbbin
    have hcost : subset_cost armors (get_binary (bitsToNat bs.reverse) armors.length) =
        total_cost_of sub := by
      rw [hbget, ← total_cost_buildOutput, buildOutput_eq_selectMask, hbsel]
    have hdef : subset_defense armors (get_binary (bitsToNat bs.reverse) armors.length) =
        total_defense_of sub := by
      rw [hbget, ← total_defense_buildOutput, buildOutput_eq_selectMask, hbsel]
    have h := hub (bitsToNat bs.reverse) hblt (by rw [hcost]; exact hsubc)
    rw [hbody, total_defense_buildOutput, ← hdef]
    exact h

theorem exhaustive_body_overflow (armors : List ArmorItem) (b : ℚ)
    (hn : 31 ≤ armors.length) : exhaustive_body armors b = [] := by
  unfold exhaustive_body
  rw [pow_int32_toNat_zero _ hn, exhaustive_run_zero]
  exact buildOutput_of_no_one _ _ getD_nil_ne_one

theorem subset_cost_pos (armors : List ArmorItem) (i : ℕ)
    (hpos : ∀ a ∈ armors, 0 < a.cost) (hi0 : i ≠ 0) (hi : i < 2 ^ armors.length) :
    0 < subset_cost armors (get_binary i armors.length) := by
  have hbit : ∃ k, i.testBit k = true := by
    by_contra hall
    push_neg at hall
    have hzero : i = 0 := Nat.eq_of_testBit_eq fun k => by
      rw [Nat.zero_testBit]
      simpa using hall k
    exact hi0 hzero
  obtain ⟨k, hk⟩ := hbit
  have hklt : k < armors.length := by
    have h1 : 2 ^ k ≤ i := Nat.testBit_implies_ge hk
    have h2 : 2 ^ k < 2 ^ armors.length := lt_of_le_of_lt h1 hi
    exact (Nat.pow_lt_pow_iff_right (by omega)).mp h2
  have hjlt : armors.length - 1 - k < armors.length := by omega
  have hchar : (get_binary i armors.length).getD (armors.length - 1 - k) (Char.ofNat 0) = '1' := by
    rw [get_binary_getD armors.length i (armors.length - 1 - k) hi hjlt]
    have hkk : armors.length - 1 - (armors.length - 1 - k) = k := by omega
    rw [hkk]
    exact hk
  have hjmem : armors.length - 1 - k ∈ (List.range armors.length).filter
      (fun j' => (get_binary i armors.length).getD j' (Char.ofNat 0) == '1') := by
    rw [List.mem_filter]
    exact ⟨List.mem_range.mpr hjlt, by simpa using hchar⟩
  unfold subset_cost
  apply List.sum_pos
  · intro x hx
    obtain ⟨j', hj', rfl⟩ := List.mem_map.mp hx
    have hj'n : j' < armors.length := List.mem_range.mp (List.mem_of_mem_filter hj')
    have hmem : armors.getD j' dummyArmor ∈ armors := by
      rw [getD_eq_of_lt hj'n]
      exact List.getElem_mem _
    exact hpos _ hmem
  · intro hmapnil
    rw [List.map_eq_nil_iff] at hmapnil
    rw [hmapnil] at hjmem
    exact absurd hjmem (List.not_mem_nil _)

theorem exhaustive_run_nonpos (armors : List ArmorItem) (b : ℚ)
    (hpos : ∀ a ∈ armors, 0 < a.cost) (hb : b ≤ 0) :
    ∀ m : ℕ, m ≤ 2 ^ armors.length →
      exhaustive_run armors b m = (-1, []) ∨
        exhaustive_run armors b m =
          (subset_defense armors (get_binary 0 armors.length),
            get_binary 0 armors.length) := by
  intro m
  induction m with
  | zero => intro _; exact Or.inl rfl
  | succ m ih =>
      intro hm
      have hm' : m ≤ 2 ^ armors.length := by omega
      rw [exhaustive_run_succ]
      rcases ih hm' with h | h <;> rw [h] <;> unfold exhaustive_step
      · by_cases hm0 : m = 0
        · subst hm0
          by_cases hfeas : subset_cost armors (get_binary 0 armors.length) ≤ b
          · rw [if_pos ⟨hfeas, by rw [subset_defense_zero_mask]; norm_num⟩]
            exact Or.inr rfl
          · rw [if_neg fun hand => hfeas hand.1]
            exact Or.inl rfl
        · have hcost := subset_cost_pos armors m hpos hm0 (by omega)
          rw [if_neg fun hand =>
            absurd hand.1 (not_le_of_lt (lt_of_le_of_lt hb hcost))]
          exact Or.inl rfl
      · by_cases hm0 : m = 0
        · subst hm0
          rw [if_neg fun hand => absurd hand.2 (lt_irrefl _)]
          exact Or.inr rfl
        · have hcost := subset_cost_pos armors m hpos hm0 (by omega)
          rw [if_neg fun hand =>
            absurd hand.1 (not_le_of_lt (lt_of_le_of_lt hb hcost))]
          exact Or.inr rfl

theorem exhaustive_body_nonpos (armors : List ArmorItem) (b : ℚ)
    (hpos : ∀ a ∈ armors, 0 < a.cost) (hb : b ≤ 0) :
    exhaustive_body armors b = [] := by
  rcases Nat.lt_or_ge armors.length 31 with hn | hn
  · have hn30 : armors.length ≤ 30 := by omega
    unfold exhaustive_body
    rw [pow_int32_toNat_eq _ hn30]
    rcases exhaustive_run_nonpos armors b hpos hb (2 ^ armors.length) (le_refl _) with h | h <;>
      rw [h]
    · exact buildOutput_of_no_one _ _ getD_nil_ne_one
    · show buildOutput armors (get_binary 0 armors.length) = []
      rw [get_binary_zero]
      exact buildOutput_of_no_one _ _ (getD_replicate_zero_ne_one _)
  · exact exhaustive_body_overflow armors b hn

theorem exhaustive_body_nil (b : ℚ) : exhaustive_body [] b = [] := by
  show buildOutput [] _ = []
  rfl

theorem subset_defense_le_total (armors : List ArmorItem) (bs : List Char)
    (hnn : ∀ a ∈ armors, 0 ≤ a.defense) :
    subset_defense armors bs ≤ total_defense_of armors := by
  rw [← total_defense_buildOutput, buildOutput_eq_selectMask]
  unfold total_defense_of
  apply List.Sublist.sum_le_sum ((selectMask_sublist armors bs).map _)
  intro x hx
  obtain ⟨a, ha, rfl⟩ := List.mem_map.mp hx
  exact hnn a ha

theorem decode_subset_inj (n i₁ i₂ : ℕ) (h₁ : i₁ < 2 ^ n) (h₂ : i₂ < 2 ^ n)
    (heq : decode_subset i₁ n = decode_subset i₂ n) : i₁ = i₂ := by
  apply Nat.eq_of_testBit_eq
  intro k
  rcases Nat.lt_or_ge k n with hk | hk
  · have hj : n - 1 - k < n := by omega
    have hkk : n - 1 - (n - 1 - k) = k := by omega
    have e₁ := get_binary_getD n i₁ (n - 1 - k) h₁ hj (Char.ofNat 0)
    have e₂ := get_binary_getD n i₂ (n - 1 - k) h₂ hj (Char.ofNat 0)
    rw [hkk] at e₁ e₂
    have hmem : (n - 1 - k ∈ decode_subset i₁ n) ↔ (n - 1 - k ∈ decode_subset i₂ n) := by
      rw [heq]
    unfold decode_subset at hmem
    rw [Finset.mem_filter, Finset.mem_filter] at hmem
    rw [Bool.eq_iff_iff, ← e₁, ← e₂]
    constructor
    · intro hc
      exact (hmem.mp ⟨Finset.mem_range.mpr hj, hc⟩).2
    · intro hc
      exact (hmem.mpr ⟨Finset.mem_range.mpr hj, hc⟩).2
  · rw [Nat.testBit_lt_two_pow (lt_of_lt_of_le h₁ (Nat.pow_le_pow_right (by omega) hk)),
      Nat.testBit_lt_two_pow (lt_of_lt_of_le h₂ (Nat.pow_le_pow_right (by omega) hk))]

theorem getD_map_range {α : Type} (n j : ℕ) (f : ℕ → α) (d : α) (h : j < n) :
    ((List.range n).map f).getD j d = f j := by
  rw [getD_eq_of_lt (by simpa using h)]
  simp

/-!
### Concrete inputs used in counterexamples and witnesses
-/

/-- High-value item used in the 31-item counterexamples. -/
def itemA : ArmorItem := ⟨"A", 1, 5⟩

/-- Second high-value item (same ratio as `itemA`, for ties). -/
def itemB : ArmorItem := ⟨"B", 1, 5⟩

/-- Zero-defense filler item. -/
def itemZ : ArmorItem := ⟨"Z", 1, 0⟩

/-- A 31-item sequence (all costs positive): enough items to overflow the
32-bit `pn` computation of the exhaustive search. -/
def armors31 : List ArmorItem := itemA :: itemB :: List.replicate 29 itemZ

/-- Two items with negative costs and fractional negative defenses; used to
show claims that omit the positive-cost invariant fail. -/
def armorsNeg : List ArmorItem := [⟨"a", -1, -(3/10)⟩, ⟨"b", -1, -(3/10)⟩]

/-- Two items with negative costs and defenses below the `-1.0` sentinel. -/
def armorsNeg2 : List ArmorItem := [⟨"a", -1, -2⟩, ⟨"b", -1, -2⟩]

/-- The three-item scenario from the spec (§8). -/
def items3 : List ArmorItem := [⟨"i0", 10, 60⟩, ⟨"i1", 20, 100⟩, ⟨"i2", 30, 120⟩]

/-- A tie pair: two items with equal ratio and equal defense. -/
def pairTie : List ArmorItem := [⟨"a", 1, 5⟩, ⟨"b", 1, 5⟩]

/-!
### Claim theorems
-/

/-- C1, counterexample: with 31 items, all costs positive, and budget
1000 ≥ 0, the exhaustive optimizer returns the empty subset even though the
feasible sublist `[itemA, itemB]` has a strictly larger total defense — the
32-bit `pn` loop overflows at `n = 31` and the enumeration never runs, so the
returned subset is not value-maximal. -/
theorem C1_counterexample :
    armors31.length < 64 ∧ (∀ a ∈ armors31, 0 < a.cost) ∧ (0 : ℚ) ≤ 1000 ∧
    exhaustive_max_defense armors31 1000 = some [] ∧
    [itemA, itemB].Sublist armors31 ∧
    total_cost_of [itemA, itemB] ≤ 1000 ∧
    ¬ (total_defense_of [itemA, itemB] ≤ total_defense_of ([] : List ArmorItem)) := by
  refine ⟨by decide, by decide, by norm_num, ?_, ?_, ?_, ?_⟩
  · show exhaustive_max_defense armors31 1000 = some []
    unfold exhaustive_max_defense
    rw [if_pos (by decide), exhaustive_body_overflow armors31 1000 (by decide)]
  · show [itemA, itemB].Sublist armors31
    have h : armors31 = [itemA, itemB] ++ List.replicate 29 itemZ := rfl
    rw [h]
    exact List.sublist_append_left _ _
  · norm_num [total_cost_of, itemA, itemB]
  · norm_num [total_defense_of, itemA, itemB]

/-- C1, amended: for every item sequence with fewer than 31 items (all costs
strictly positive) and every budget ≥ 0, the subset returned by the
exhaustive optimizer is feasible and its total value is at least the total
value of every feasible subset (sublist) of the input sequence. -/
theorem C1_exhaustive_optimal (armors : List ArmorItem) (b : ℚ)
    (hn : armors.length < 31) (hpos : ∀ a ∈ armors, 0 < a.cost) (hb : 0 ≤ b) :
    ∃ out, exhaustive_max_defense armors b = some out ∧
      total_cost_of out ≤ b ∧
      ∀ sub : List ArmorItem, sub.Sublist armors → total_cost_of sub ≤ b →
        total_defense_of sub ≤ total_defense_of out := by
  obtain ⟨hc, hopt⟩ := exhaustive_optimal armors b (by omega) hb
  refine ⟨exhaustive_body armors b, ?_, hc, hopt⟩
  unfold exhaustive_max_defense
  rw [if_pos (by omega)]

/-- Witness for C1 at a concrete input. -/
theorem C1_witness :
    ([⟨"x", 1, 2⟩] : List ArmorItem).length < 31 ∧
    (∀ a ∈ ([⟨"x", 1, 2⟩] : List ArmorItem), 0 < a.cost) ∧ (0 : ℚ) ≤ 1 ∧
    (∃ out, exhaustive_max_defense [⟨"x", 1, 2⟩] 1 = some out ∧
      total_cost_of out ≤ 1 ∧
      ∀ sub : List ArmorItem, sub.Sublist [⟨"x", 1, 2⟩] → total_cost_of sub ≤ 1 →
        total_defense_of sub ≤ total_defense_of out) :=
  ⟨by decide, by decide, by norm_num,
    C1_exhaustive_optimal [⟨"x", 1, 2⟩] 1 (by decide) (by decide) (by norm_num)⟩

/-- C2, counterexample: the feasibility invariant `total_cost ≤ budget`
fails for a negative budget — on the empty sequence with budget `-1` both
optimizers return the empty solution of total cost `0 > -1`. -/
theorem C2_counterexample :
    greedy_max_defense [] (-1) = [] ∧
    exhaustive_max_defense [] (-1) = some [] ∧
    ¬ (total_cost_of (greedy_max_defense [] (-1)) ≤ (-1 : ℚ)) := by
  exact ⟨rfl, by decide, by decide⟩

/-- C2, amended: for every item sequence and every budget ≥ 0, the total
cost of the subset returned by the greedy optimizer, and of any subset the
exhaustive optimizer returns, is at most the budget. -/
theorem C2_feasibility (armors : List ArmorItem) (b : ℚ) (hb : 0 ≤ b) :
    total_cost_of (greedy_max_defense armors b) ≤ b ∧
    ∀ out, exhaustive_max_defense armors b = some out → total_cost_of out ≤ b := by
  refine ⟨greedy_feasible armors b hb, ?_⟩
  intro out hout
  unfold exhaustive_max_defense at hout
  by_cases hn : armors.length < 64
  · rw [if_pos hn] at hout
    have hbody : out = exhaustive_body armors b := (Option.some.inj hout).symm
    subst hbody
    rcases Nat.lt_or_ge armors.length 31 with h31 | h31
    · exact (exhaustive_optimal armors b (by omega) hb).1
    · rw [exhaustive_body_overflow armors b h31]
      simpa [total_cost_of] using hb
  · rw [if_neg hn] at hout
    exact absurd hout (by simp)

/-- Witness for C2 at a concrete input. -/
theorem C2_witness :
    (0 : ℚ) ≤ 2 ∧
    (total_cost_of (greedy_max_defense [⟨"a", 1, 1⟩] 2) ≤ 2 ∧
      ∀ out, exhaustive_max_defense [⟨"a", 1, 1⟩] 2 = some out → total_cost_of out ≤ 2) :=
  ⟨by norm_num, C2_feasibility [⟨"a", 1, 1⟩] 2 (by norm_num)⟩

theorem subset_cost_eq_selectMask (armors : List ArmorItem) (bs : List Char) :
    subset_cost armors bs = total_cost_of (selectMask armors bs) := by
  rw [← total_cost_buildOutput, buildOutput_eq_selectMask]

theorem subset_defense_eq_selectMask (armors : List ArmorItem) (bs : List Char) :
    subset_defense armors bs = total_defense_of (selectMask armors bs) := by
  rw [← total_defense_buildOutput, buildOutput_eq_selectMask]

theorem greedy_go_accept_all :
    ∀ (fuel : ℕ) (source : List ArmorItem) (cc b : ℚ) (out : List ArmorItem),
      source.length ≤ fuel → (∀ a ∈ source, 0 ≤ a.cost) →
      cc + total_cost_of source ≤ b →
      List.Perm (greedy_go fuel source cc b out) (out ++ source) := by
  intro fuel
  induction fuel with
  | zero =>
      intro source cc b out hlen _ _
      have hsrc : source = [] := List.length_eq_zero.mp (Nat.le_zero.mp hlen)
      subst hsrc
      simp [greedy_go]
  | succ fuel ih =>
      intro source cc b out hlen hpos hsum
      match source with
      | [] => simp [greedy_go]
      | a :: rest =>
          simp only [greedy_go]
          have hne : (a :: rest) ≠ [] := by simp
          have hp : bestIdx (a :: rest) < (a :: rest).length := bestIdx_lt _ hne
          have hperm : List.Perm
              ((a :: rest).getD (bestIdx (a :: rest)) dummyArmor ::
                (a :: rest).eraseIdx (bestIdx (a :: rest))) (a :: rest) :=
            getD_cons_eraseIdx_perm _ _ hp
          have hsump : ((a :: rest).getD (bestIdx (a :: rest)) dummyArmor).cost +
              total_cost_of ((a :: rest).eraseIdx (bestIdx (a :: rest))) =
              total_cost_of (a :: rest) := by
            have hmaps := (hperm.map (fun x => x.cost)).sum_eq
            simpa [total_cost_of] using hmaps
          have hpos' : ∀ x ∈ (a :: rest).eraseIdx (bestIdx (a :: rest)), 0 ≤ x.cost :=
            fun x hx => hpos x ((List.eraseIdx_sublist _ _).subset hx)
          have herasenn : 0 ≤ total_cost_of ((a :: rest).eraseIdx (bestIdx (a :: rest))) := by
            unfold total_cost_of
            apply List.sum_nonneg
            intro x hx
            obtain ⟨y, hy, rfl⟩ := List.mem_map.mp hx
            exact hpos' y hy
          have hsum' : cc + ((a :: rest).getD (bestIdx (a :: rest)) dummyArmor).cost +
              total_cost_of ((a :: rest).eraseIdx (bestIdx (a :: rest))) ≤ b := by
            rw [add_assoc, hsump]
            exact hsum
          have hfit : cc + ((a :: rest).getD (bestIdx (a :: rest)) dummyArmor).cost ≤ b := by
            linarith
          rw [if_pos hfit]
          have hlen' : ((a :: rest).eraseIdx (bestIdx (a :: rest))).length ≤ fuel := by
            rw [List.length_eraseIdx_of_lt hp]
            simp only [List.length_cons] at hlen ⊢
            omega
          have hrec := ih ((a :: rest).eraseIdx (bestIdx (a :: rest)))
            (cc + ((a :: rest).getD (bestIdx (a :: rest)) dummyArmor).cost) b
            (out ++ [(a :: rest).getD (bestIdx (a :: rest)) dummyArmor]) hlen' hpos' hsum'
          refine hrec.trans ?_
          have hre : (out ++ [(a :: rest).getD (bestIdx (a :: rest)) dummyArmor]) ++
              (a :: rest).eraseIdx (bestIdx (a :: rest)) =
              out ++ ((a :: rest).getD (bestIdx (a :: rest)) dummyArmor ::
                (a :: rest).eraseIdx (bestIdx (a :: rest))) := by
            simp [List.append_assoc]
          rw [hre]
          exact hperm.append_left out

theorem total_cost_armors31 : total_cost_of armors31 = 31 := by
  simp [armors31, total_cost_of, itemA, itemB, itemZ, List.map_replicate,
    List.sum_replicate, nsmul_eq_mul]
  norm_num

theorem total_defense_armors31 : total_defense_of armors31 = 10 := by
  simp [armors31, total_defense_of, itemA, itemB, itemZ, List.map_replicate,
    List.sum_replicate, nsmul_eq_mul]
  norm_num

theorem greedy_armors31_defense :
    total_defense_of (greedy_max_defense armors31 1000) = 10 := by
  have hperm := greedy_go_accept_all armors31.length armors31 0 1000 []
    (le_refl _) (by decide)
    (by rw [zero_add, total_cost_armors31]; norm_num)
  have hdef := (hperm.map (fun x => x.defense)).sum_eq
  show total_defense_of (greedy_go armors31.length armors31 0 1000 []) = 10
  unfold total_defense_of
  rw [hdef]
  have hnil : ([] : List ArmorItem) ++ armors31 = armors31 := List.nil_append _
  rw [hnil]
  exact total_defense_armors31

theorem bestIdx_armorsNeg : bestIdx armorsNeg = 0 := by
  have hr : ¬ (ratio (⟨"a", -1, -(3/10)⟩ : ArmorItem) <
      ratio (⟨"b", -1, -(3/10)⟩ : ArmorItem)) := by
    norm_num [ratio]
  simp [bestIdx, armorsNeg, scanBest, hr]

theorem greedy_armorsNeg : greedy_max_defense armorsNeg (-2) = [] := by
  have h1 := bestIdx_armorsNeg
  show greedy_go 2 armorsNeg 0 (-2) [] = []
  simp only [armorsNeg] at h1 ⊢
  simp only [greedy_go, h1]
  rw [if_neg (by norm_num)]
  have h2 : bestIdx [(⟨"b", -1, -(3/10)⟩ : ArmorItem)] = 0 := by
    simp [bestIdx, scanBest]
  show greedy_go 1 [(⟨"b", -1, -(3/10)⟩ : ArmorItem)] 0 (-2) [] = []
  simp only [greedy_go, h2]
  rw [if_neg (by norm_num)]

theorem exhaustive_armorsNeg :
    exhaustive_body armorsNeg (-2) = [⟨"a", -1, -(3/10)⟩, ⟨"b", -1, -(3/10)⟩] := by
  have hlen : armorsNeg.length = 2 := rfl
  have hm0 : get_binary 0 2 = ['0', '0'] := by decide
  have hm1 : get_binary 1 2 = ['0', '1'] := by decide
  have hm2 : get_binary 2 2 = ['1', '0'] := by decide
  have hm3 : get_binary 3 2 = ['1', '1'] := by decide
  have hsel0 : selectMask armorsNeg ['0', '0'] = [] := rfl
  have hsel1 : selectMask armorsNeg ['0', '1'] = [⟨"b", -1, -(3/10)⟩] := rfl
  have hsel2 : selectMask armorsNeg ['1', '0'] = [⟨"a", -1, -(3/10)⟩] := rfl
  have hsel3 : selectMask armorsNeg ['1', '1'] =
      [⟨"a", -1, -(3/10)⟩, ⟨"b", -1, -(3/10)⟩] := rfl
  have hc0 : subset_cost armorsNeg (get_binary 0 2) = 0 := by
    rw [hm0, subset_cost_eq_selectMask, hsel0]
    norm_num [total_cost_of]
  have hd0 : subset_defense armorsNeg (get_binary 0 2) = 0 := by
    rw [hm0, subset_defense_eq_selectMask, hsel0]
    norm_num [total_defense_of]
  have hc1 : subset_cost armorsNeg (get_binary 1 2) = -1 := by
    rw [hm1, subset_cost_eq_selectMask, hsel1]
    norm_num [total_cost_of]
  have hc2 : subset_cost armorsNeg (get_binary 2 2) = -1 := by
    rw [hm2, subset_cost_eq_selectMask, hsel2]
    norm_num [total_cost_of]
  have hc3 : subset_cost armorsNeg (get_binary 3 2) = -2 := by
    rw [hm3, subset_cost_eq_selectMask, hsel3]
    norm_num [total_cost_of]
  have hd3 : subset_defense armorsNeg (get_binary 3 2) = -(3/5) := by
    rw [hm3, subset_defense_eq_selectMask, hsel3]
    norm_num [total_defense_of]
  have e1 : exhaustive_run armorsNeg (-2) 1 = (-1, []) := by
    rw [exhaustive_run_succ, exhaustive_run_zero]
    simp only [exhaustive_step, hlen, hc0, hd0]
    norm_num
  have e2 : exhaustive_run armorsNeg (-2) 2 = (-1, []) := by
    rw [exhaustive_run_succ, e1]
    simp only [exhaustive_step, hlen, hc1]
    norm_num
  have e3 : exhaustive_run armorsNeg (-2) 3 = (-1, []) := by
    rw [exhaustive_run_succ, e2]
    simp only [exhaustive_step, hlen, hc2]
    norm_num
  have e4 : exhaustive_run armorsNeg (-2) 4 = (-(3/5), ['1', '1']) := by
    rw [exhaustive_run_succ, e3]
    simp only [exhaustive_step, hlen, hc3, hd3]
    rw [if_pos (by norm_num)]
    rw [hm3]
  have hpn : (pow_int32 armorsNeg.length).toNat = 4 := by decide
  show buildOutput armorsNeg
      (exhaustive_run armorsNeg (-2) (pow_int32 armorsNeg.length).toNat).2 = _
  rw [hpn, e4]
  show buildOutput armorsNeg ['1', '1'] = _
  rw [buildOutput_eq_selectMask, hsel3]

/-- C3, counterexample: the dominance `exhaustive ≥ greedy` fails (a) at 31
items with positive costs, where the overflowed enumeration returns the empty
subset (value 0) while greedy collects value 10, and (b) already at 2 items
when costs may be negative (violating the `ArmorItem` invariant the claim
left implicit), where the exhaustive optimizer returns value `-3/5` while
greedy returns the empty subset of value 0. -/
theorem C3_counterexample :
    (exhaustive_max_defense armors31 1000 = some [] ∧
      total_defense_of ([] : List ArmorItem) <
        total_defense_of (greedy_max_defense armors31 1000)) ∧
    (exhaustive_max_defense armorsNeg (-2) =
        some [⟨"a", -1, -(3/10)⟩, ⟨"b", -1, -(3/10)⟩] ∧
      total_defense_of [(⟨"a", -1, -(3/10)⟩ : ArmorItem), ⟨"b", -1, -(3/10)⟩] <
        total_defense_of (greedy_max_defense armorsNeg (-2))) := by
  refine ⟨⟨?_, ?_⟩, ⟨?_, ?_⟩⟩
  · unfold exhaustive_max_defense
    rw [if_pos (by decide), exhaustive_body_overflow armors31 1000 (by decide)]
  · rw [greedy_armors31_defense]
    norm_num [total_defense_of]
  · unfold exhaustive_max_defense
    rw [if_pos (by decide), exhaustive_armorsNeg]
  · rw [greedy_armorsNeg]
    norm_num [total_defense_of]

/-- C3, amended: for every item sequence with fewer than 31 items and all
costs strictly positive, and every budget, the total value returned by the
exhaustive optimizer is at least the total value returned by the greedy
optimizer on the same input. -/
theorem C3_exhaustive_ge_greedy (armors : List ArmorItem) (b : ℚ)
    (hn : armors.length < 31) (hpos : ∀ a ∈ armors, 0 < a.cost) :
    ∃ out, exhaustive_max_defense armors b = some out ∧
      total_defense_of (greedy_max_defense armors b) ≤ total_defense_of out := by
  refine ⟨exhaustive_body armors b, ?_, ?_⟩
  · unfold exhaustive_max_defense
    rw [if_pos (by omega)]
  rcases le_or_lt 0 b with hb | hb
  · obtain ⟨mid, hmidperm, hmidsub⟩ := greedy_go_subperm armors.length armors 0 b []
    rw [List.nil_append] at hmidsub
    have hcost_eq : total_cost_of mid = total_cost_of (greedy_max_defense armors b) := by
      unfold total_cost_of
      exact (hmidperm.map (fun x => x.cost)).sum_eq
    have hdef_eq : total_defense_of mid = total_defense_of (greedy_max_defense armors b) := by
      unfold total_defense_of
      exact (hmidperm.map (fun x => x.defense)).sum_eq
    have hfeas : total_cost_of mid ≤ b := by
      rw [hcost_eq]
      exact greedy_feasible armors b hb
    have hle := (exhaustive_optimal armors b (by omega) hb).2 mid hmidsub hfeas
    rw [hdef_eq] at hle
    exact hle
  · have hg : greedy_max_defense armors b = [] :=
      greedy_go_reject_all armors.length armors b [] hpos (le_of_lt hb)
    rw [hg, exhaustive_body_nonpos armors b hpos (le_of_lt hb)]

/-- Witness for C3 at the spec's three-item scenario. -/
theorem C3_witness :
    items3.length < 31 ∧ (∀ a ∈ items3, 0 < a.cost) ∧
    (∃ out, exhaustive_max_defense items3 50 = some out ∧
      total_defense_of (greedy_max_defense items3 50) ≤ total_defense_of out) :=
  ⟨by decide, by decide, C3_exhaustive_ge_greedy items3 50 (by decide) (by decide)⟩

/-- C4: for every item sequence with strictly positive costs and every
budget, the greedy optimizer computes exactly the spec's reference process:
repeatedly pick the first remaining item of maximum value-to-cost ratio,
accept it when it fits, always remove it, stop when the working copy is
empty. -/
theorem C4_greedy_matches_reference (armors : List ArmorItem) (b : ℚ)
    (hpos : ∀ a ∈ armors, 0 < a.cost) :
    greedy_max_defense armors b = greedySpec armors b := by
  unfold greedy_max_defense greedySpec
  exact greedy_go_eq_specGo armors.length armors 0 b []

/-- Witness for C4 at the spec's three-item scenario. -/
theorem C4_witness :
    (∀ a ∈ items3, 0 < a.cost) ∧ greedy_max_defense items3 50 = greedySpec items3 50 :=
  ⟨by decide, C4_greedy_matches_reference items3 50 (by decide)⟩

/-- C5: on degenerate input — an empty item sequence with any budget, or a
budget ≤ 0 with fewer than 64 items of strictly positive cost — both
optimizers return the empty solution (total cost 0, total value 0) and the
exhaustive optimizer's assertion does not fire. -/
theorem C5_degenerate (armors : List ArmorItem) (b : ℚ)
    (h : armors = [] ∨ (b ≤ 0 ∧ armors.length < 64 ∧ ∀ a ∈ armors, 0 < a.cost)) :
    greedy_max_defense armors b = [] ∧
    exhaustive_max_defense armors b = some [] ∧
    total_cost_of ([] : List ArmorItem) = 0 ∧
    total_defense_of ([] : List ArmorItem) = 0 := by
  rcases h with rfl | ⟨hb, hn, hpos⟩
  · refine ⟨rfl, ?_, rfl, rfl⟩
    unfold exhaustive_max_defense
    rw [if_pos (by simp), exhaustive_body_nil]
  · refine ⟨greedy_go_reject_all armors.length armors b [] hpos hb, ?_, rfl, rfl⟩
    unfold exhaustive_max_defense
    rw [if_pos hn, exhaustive_body_nonpos armors b hpos hb]

/-- Witness for C5 at a concrete degenerate input (budget 0). -/
theorem C5_witness :
    (([⟨"a", 2, 3⟩] : List ArmorItem) = [] ∨
      ((0 : ℚ) ≤ 0 ∧ ([⟨"a", 2, 3⟩] : List ArmorItem).length < 64 ∧
        ∀ a ∈ ([⟨"a", 2, 3⟩] : List ArmorItem), 0 < a.cost)) ∧
    (greedy_max_defense [⟨"a", 2, 3⟩] 0 = [] ∧
      exhaustive_max_defense [⟨"a", 2, 3⟩] 0 = some [] ∧
      total_cost_of ([] : List ArmorItem) = 0 ∧
      total_defense_of ([] : List ArmorItem) = 0) :=
  ⟨Or.inr ⟨le_refl 0, by decide, by decide⟩,
    C5_degenerate [⟨"a", 2, 3⟩] 0 (Or.inr ⟨le_refl 0, by decide, by decide⟩)⟩

/-- C6: the claim that the enumeration loop visits exactly `2^n` bitmasks
for every `n < 64` is broken by the code itself: `pn` is a 32-bit `int`, so
at `n = 31` the `pn *= 2` loop overflows to `-2^31`, the loop body runs zero
times (not `2^31` times), and the exhaustive search degenerates to returning
the empty subset. -/
theorem C6_loop_count_bug :
    pow_int32 31 = -(2 ^ 31) ∧ (pow_int32 31).toNat = 0 ∧
    armors31.length = 31 ∧ (pow_int32 armors31.length).toNat ≠ 2 ^ 31 ∧
    exhaustive_body armors31 1000 = [] := by
  refine ⟨pow_int32_31, ?_, by decide, ?_, exhaustive_body_overflow armors31 1000 (by decide)⟩
  · rw [pow_int32_31]
    rfl
  · have h31 : armors31.length = 31 := by decide
    rw [h31, pow_int32_31]
    intro hcontra
    rw [show ((-(2 ^ 31) : ℤ)).toNat = 0 from rfl] at hcontra
    exact absurd hcontra (by norm_num)

/-!
### The 32-bit width of `get_binary`'s `int num` parameter

`get_binary` receives its number as a C++ `int`.  The `ℕ`-valued
`revBits` and `get_binary` above model the function exactly for the
arguments the program can pass (`0 ≤ num ≤ 2^31 - 1`; `get_binary_int_eq`
below proves the agreement, and the enumeration loop only ever passes
`i < pn ≤ 2^30`).  An index `i ≥ 2^31` does not fit in the parameter: it
arrives wrapped to a negative value, for which the while-loop computes
truncating `%` and `/` and appends `'0' + rem` with `rem ∈ {-1, 0}` — the
characters `'/'` and `'0'`, never `'1'`.  The following definitions keep the
parameter at its true width. -/

/-- The while-loop of `get_binary` on the actual `int num` argument:
`rem = num % 2` and `num /= 2` are C++ truncating operations (`Int.tmod`,
`Int.tdiv`), and the appended character is `'0' + rem` on the possibly
negative remainder.  The fuel `num.natAbs` bounds the iteration count. -/
def revBits_int_go : ℕ → ℤ → List Char
  | 0, _ => []
  | fuel + 1, num =>
      if num = 0 then []
      else Char.ofNat (48 + num.tmod 2).toNat :: revBits_int_go fuel (num.tdiv 2)

/-- The digit string `get_binary` builds from an `int num` argument. -/
def revBits_int (num : ℤ) : List Char := revBits_int_go num.natAbs num

/-- `get_binary` with the `int num` parameter kept at 32-bit width: an
enumeration index `i` arrives as the wrapped value `intWrap i`. -/
def get_binary_int (i : ℕ) (len : ℕ) : List Char :=
  let num := intWrap (i : ℤ)
  let bin_str := revBits_int num
  let sz := bin_str.length
  let padded := bin_str ++ List.replicate (len - sz) (Char.ofNat 48)
  (padded.take len).reverse ++ padded.drop len

/-- The set of item indices decoded from bitmask `i` through the int-typed
`get_binary`: item `j` is selected iff character `j` of the string is `'1'`. -/
def decode_subset_int (i n : ℕ) : Finset ℕ :=
  (Finset.range n).filter fun j => (get_binary_int i n).getD j (Char.ofNat 0) = '1'

theorem revBits_int_go_natCast (fuel : ℕ) :
    ∀ num : ℕ, revBits_int_go fuel (num : ℤ) = revBits_go fuel num := by
  induction fuel with
  | zero => intro num; rfl
  | succ fuel ih =>
      intro num
      by_cases h : num = 0
      · subst h; rfl
      · have h' : (num : ℤ) ≠ 0 := Int.natCast_ne_zero.mpr h
        have hm : (num : ℤ).tmod 2 = ((num % 2 : ℕ) : ℤ) := rfl
        have hd : (num : ℤ).tdiv 2 = ((num / 2 : ℕ) : ℤ) := rfl
        show (if (num : ℤ) = 0 then [] else
            Char.ofNat (48 + (num : ℤ).tmod 2).toNat ::
              revBits_int_go fuel ((num : ℤ).tdiv 2)) = _
        rw [if_neg h', hm, hd, ih (num / 2)]
        show Char.ofNat (48 + ((num % 2 : ℕ) : ℤ)).toNat :: revBits_go fuel (num / 2) =
          (if num = 0 then [] else Char.ofNat (48 + num % 2) :: revBits_go fuel (num / 2))
        rw [if_neg h]
        rfl

theorem revBits_int_natCast (num : ℕ) : revBits_int (num : ℤ) = revBits num := by
  show revBits_int_go (num : ℤ).natAbs (num : ℤ) = revBits_go num num
  rw [Int.natAbs_ofNat]
  exact revBits_int_go_natCast num num

theorem get_binary_int_eq (i n : ℕ) (hi : i < 2 ^ 31) :
    get_binary_int i n = get_binary i n := by
  have hwrap : intWrap (i : ℤ) = (i : ℤ) := by
    apply intWrap_eq_self
    · have h0 : (0 : ℤ) ≤ (i : ℤ) := Int.natCast_nonneg i
      have h1 : (0 : ℤ) ≤ 2 ^ 31 := by positivity
      linarith
    · have h2 : (i : ℤ) < ((2 ^ 31 : ℕ) : ℤ) := by exact_mod_cast hi
      have h3 : ((2 ^ 31 : ℕ) : ℤ) = 2 ^ 31 := by norm_cast
      rw [h3] at h2
      exact h2
  show ((revBits_int (intWrap (i : ℤ)) ++
      List.replicate (n - (revBits_int (intWrap (i : ℤ))).length)
        (Char.ofNat 48)).take n).reverse ++
      (revBits_int (intWrap (i : ℤ)) ++
      List.replicate (n - (revBits_int (intWrap (i : ℤ))).length)
        (Char.ofNat 48)).drop n = get_binary i n
  rw [hwrap, revBits_int_natCast]
  rfl

theorem decode_subset_int_eq (i n : ℕ) (hi : i < 2 ^ 31) :
    decode_subset_int i n = decode_subset i n := by
  unfold decode_subset_int decode_subset
  simp only [get_binary_int_eq i n hi]

/-- C7, counterexample: (a) decoding bitmask `i = 1` with `n = 2` items
yields the subset containing item 1, not item 0, although bit 0 (the least
significant bit) of `i = 1` is set — the bitmask string is most-significant
first; (b) at `n = 32` the index `i = 2^31` has bit 31 set, but it cannot
fit in the `int num` parameter: it arrives as `-2^31`, the while-loop emits
only `'0'` and `'/'` characters, and no item at all is decoded. -/
theorem C7_counterexample :
    (Nat.testBit 1 0 = true ∧
      (0 : ℕ) ∉ decode_subset_int 1 2 ∧ (1 : ℕ) ∈ decode_subset_int 1 2) ∧
    (Nat.testBit (2 ^ 31) 31 = true ∧
      (31 : ℕ) ∉ decode_subset_int (2 ^ 31) 32 ∧
      (0 : ℕ) ∉ decode_subset_int (2 ^ 31) 32 ∧
      decode_subset_int (2 ^ 31) 32 = ∅) := by
  constructor
  · refine ⟨rfl, ?_, ?_⟩ <;> decide
  · refine ⟨by decide, ?_, ?_, ?_⟩ <;> decide

/-- C7, amended: for `0 ≤ n ≤ 31` (so that every index `i < 2^n` fits in
the 32-bit `int num` parameter), `i < 2^n` and `j < n`, the subset decoded
from `i` contains item `j` iff bit `n - 1 - j` of `i` is set: character `j`
of the bitmask string corresponds to bit `n - 1 - j`, i.e. the string is
written most-significant-bit first and bit 0 corresponds to item `n - 1`. -/
theorem C7_decode_msb_first (n i j : ℕ) (hn : n ≤ 31) (hi : i < 2 ^ n) (hj : j < n) :
    j ∈ decode_subset_int i n ↔ i.testBit (n - 1 - j) = true := by
  have hi31 : i < 2 ^ 31 := lt_of_lt_of_le hi (Nat.pow_le_pow_right (by omega) hn)
  rw [decode_subset_int_eq i n hi31]
  unfold decode_subset
  rw [Finset.mem_filter]
  constructor
  · intro hand
    exact (get_binary_getD n i j hi hj _).mp hand.2
  · intro h
    exact ⟨Finset.mem_range.mpr hj, (get_binary_getD n i j hi hj _).mpr h⟩

/-- Witness for C7 at `n = 2`, `i = 1`, `j = 1`. -/
theorem C7_witness :
    (2 : ℕ) ≤ 31 ∧ (1 : ℕ) < 2 ^ 2 ∧ (1 : ℕ) < 2 ∧
    ((1 : ℕ) ∈ decode_subset_int 1 2 ↔ Nat.testBit 1 (2 - 1 - 1) = true) :=
  ⟨by decide, by decide, by decide, C7_decode_msb_first 2 1 1 (by decide) (by decide) (by decide)⟩

/-- C8, amended: with fewer than 31 items, all costs strictly positive, and
some tie among feasible bitmasks, the exhaustive optimizer's result is the
subset decoded from the least enumeration index attaining the maximum
feasible value (first-seen candidate wins on ties). -/
theorem C8_first_max_wins (armors : List ArmorItem) (b : ℚ)
    (hn : armors.length < 31) (hpos : ∀ a ∈ armors, 0 < a.cost)
    (htie : ∃ i₁ i₂, i₁ < i₂ ∧ i₂ < 2 ^ armors.length ∧
      subset_cost armors (get_binary i₁ armors.length) ≤ b ∧
      subset_cost armors (get_binary i₂ armors.length) ≤ b ∧
      subset_defense armors (get_binary i₁ armors.length) =
        subset_defense armors (get_binary i₂ armors.length)) :
    ∃ iStar, iStar < 2 ^ armors.length ∧
      subset_cost armors (get_binary iStar armors.length) ≤ b ∧
      (∀ i, i < 2 ^ armors.length → subset_cost armors (get_binary i armors.length) ≤ b →
        subset_defense armors (get_binary i armors.length) ≤
          subset_defense armors (get_binary iStar armors.length)) ∧
      (∀ i, i < iStar → subset_cost armors (get_binary i armors.length) ≤ b →
        subset_defense armors (get_binary i armors.length) <
          subset_defense armors (get_binary iStar armors.length)) ∧
      exhaustive_body armors b = buildOutput armors (get_binary iStar armors.length) := by
  obtain ⟨i₁, i₂, h12, h2lt, hf1, hf2, _⟩ := htie
  have hb : 0 ≤ b := by
    by_cases h10 : i₁ = 0
    · subst h10
      rw [subset_cost_zero_mask] at hf1
      exact hf1
    · have hpos1 := subset_cost_pos armors i₁ hpos h10 (by omega)
      linarith
  obtain ⟨iStar, hlt, hfeas, hbody, hub, hst⟩ := exhaustive_body_spec armors b (by omega) hb
  exact ⟨iStar, hlt, hfeas, hub, hst, hbody⟩

theorem selectMask_pairTie1 : selectMask pairTie ['0', '1'] = [⟨"b", 1, 5⟩] := rfl

theorem selectMask_pairTie2 : selectMask pairTie ['1', '0'] = [⟨"a", 1, 5⟩] := rfl

theorem pairTie_cost1 : subset_cost pairTie (get_binary 1 pairTie.length) = 1 := by
  rw [show pairTie.length = 2 from rfl, (by decide : get_binary 1 2 = ['0', '1']),
    subset_cost_eq_selectMask, selectMask_pairTie1]
  norm_num [total_cost_of]

theorem pairTie_cost2 : subset_cost pairTie (get_binary 2 pairTie.length) = 1 := by
  rw [show pairTie.length = 2 from rfl, (by decide : get_binary 2 2 = ['1', '0']),
    subset_cost_eq_selectMask, selectMask_pairTie2]
  norm_num [total_cost_of]

theorem pairTie_defense_eq :
    subset_defense pairTie (get_binary 1 pairTie.length) =
      subset_defense pairTie (get_binary 2 pairTie.length) := by
  rw [show pairTie.length = 2 from rfl, (by decide : get_binary 1 2 = ['0', '1']),
    (by decide : get_binary 2 2 = ['1', '0']),
    subset_defense_eq_selectMask, subset_defense_eq_selectMask,
    selectMask_pairTie1, selectMask_pairTie2]
  norm_num [total_defense_of]

/-- Witness for C8 at a two-item tie. -/
theorem C8_witness :
    (pairTie.length < 31 ∧ (∀ a ∈ pairTie, 0 < a.cost)) ∧
    (∃ iStar, iStar < 2 ^ pairTie.length ∧
      subset_cost pairTie (get_binary iStar pairTie.length) ≤ 1 ∧
      (∀ i, i < 2 ^ pairTie.length → subset_cost pairTie (get_binary i pairTie.length) ≤ 1 →
        subset_defense pairTie (get_binary i pairTie.length) ≤
          subset_defense pairTie (get_binary iStar pairTie.length)) ∧
      (∀ i, i < iStar → subset_cost pairTie (get_binary i pairTie.length) ≤ 1 →
        subset_defense pairTie (get_binary i pairTie.length) <
          subset_defense pairTie (get_binary iStar pairTie.length)) ∧
      exhaustive_body pairTie 1 = buildOutput pairTie (get_binary iStar pairTie.length)) :=
  ⟨⟨by decide, by decide⟩,
    C8_first_max_wins pairTie 1 (by decide) (by decide)
      ⟨1, 2, by omega, by decide, by rw [pairTie_cost1],
        by rw [pairTie_cost2], pairTie_defense_eq⟩⟩

theorem selectMask_armors31_AB :
    selectMask armors31 (get_binary (2 ^ 30 + 2 ^ 29) armors31.length) = [itemA, itemB] := by
  decide

theorem selectMask_armors31_ABZ :
    selectMask armors31 (get_binary (2 ^ 30 + 2 ^ 29 + 1) armors31.length) =
      [itemA, itemB, itemZ] := by
  decide

theorem exhaustive_armorsNeg2 : exhaustive_body armorsNeg2 (-1) = [] := by
  have hlen : armorsNeg2.length = 2 := rfl
  have hm0 : get_binary 0 2 = ['0', '0'] := by decide
  have hm1 : get_binary 1 2 = ['0', '1'] := by decide
  have hm2 : get_binary 2 2 = ['1', '0'] := by decide
  have hm3 : get_binary 3 2 = ['1', '1'] := by decide
  have hsel0 : selectMask armorsNeg2 ['0', '0'] = [] := rfl
  have hsel1 : selectMask armorsNeg2 ['0', '1'] = [⟨"b", -1, -2⟩] := rfl
  have hsel2 : selectMask armorsNeg2 ['1', '0'] = [⟨"a", -1, -2⟩] := rfl
  have hsel3 : selectMask armorsNeg2 ['1', '1'] = [⟨"a", -1, -2⟩, ⟨"b", -1, -2⟩] := rfl
  have hc0 : subset_cost armorsNeg2 (get_binary 0 2) = 0 := by
    rw [hm0, subset_cost_eq_selectMask, hsel0]
    norm_num [total_cost_of]
  have hd1 : subset_defense armorsNeg2 (get_binary 1 2) = -2 := by
    rw [hm1, subset_defense_eq_selectMask, hsel1]
    norm_num [total_defense_of]
  have hd2 : subset_defense armorsNeg2 (get_binary 2 2) = -2 := by
    rw [hm2, subset_defense_eq_selectMask, hsel2]
    norm_num [total_defense_of]
  have hd3 : subset_defense armorsNeg2 (get_binary 3 2) = -4 := by
    rw [hm3, subset_defense_eq_selectMask, hsel3]
    norm_num [total_defense_of]
  have e1 : exhaustive_run armorsNeg2 (-1) 1 = (-1, []) := by
    rw [exhaustive_run_succ, exhaustive_run_zero]
    simp only [exhaustive_step, hlen, hc0]
    norm_num
  have e2 : exhaustive_run armorsNeg2 (-1) 2 = (-1, []) := by
    rw [exhaustive_run_succ, e1]
    simp only [exhaustive_step, hlen, hd1]
    norm_num
  have e3 : exhaustive_run armorsNeg2 (-1) 3 = (-1, []) := by
    rw [exhaustive_run_succ, e2]
    simp only [exhaustive_step, hlen, hd2]
    norm_num
  have e4 : exhaustive_run armorsNeg2 (-1) 4 = (-1, []) := by
    rw [exhaustive_run_succ, e3]
    simp only [exhaustive_step, hlen, hd3]
    norm_num
  have hpn : (pow_int32 armorsNeg2.length).toNat = 4 := by decide
  show buildOutput armorsNeg2
      (exhaustive_run armorsNeg2 (-1) (pow_int32 armorsNeg2.length).toNat).2 = []
  rw [hpn, e4]
  exact buildOutput_of_no_one _ _ getD_nil_ne_one

theorem armorsNeg2_cost1 : subset_cost armorsNeg2 (get_binary 1 armorsNeg2.length) = -1 := by
  rw [show armorsNeg2.length = 2 from rfl, (by decide : get_binary 1 2 = ['0', '1']),
    subset_cost_eq_selectMask, (show selectMask armorsNeg2 ['0', '1'] = [⟨"b", -1, -2⟩] from rfl)]
  norm_num [total_cost_of]

theorem armorsNeg2_cost2 : subset_cost armorsNeg2 (get_binary 2 armorsNeg2.length) = -1 := by
  rw [show armorsNeg2.length = 2 from rfl, (by decide : get_binary 2 2 = ['1', '0']),
    subset_cost_eq_selectMask, (show selectMask armorsNeg2 ['1', '0'] = [⟨"a", -1, -2⟩] from rfl)]
  norm_num [total_cost_of]

theorem armorsNeg2_cost0 : subset_cost armorsNeg2 (get_binary 0 armorsNeg2.length) = 0 := by
  rw [show armorsNeg2.length = 2 from rfl, (by decide : get_binary 0 2 = ['0', '0']),
    subset_cost_eq_selectMask, (show selectMask armorsNeg2 ['0', '0'] = [] from rfl)]
  norm_num [total_cost_of]

theorem armorsNeg2_defense1 :
    subset_defense armorsNeg2 (get_binary 1 armorsNeg2.length) = -2 := by
  rw [show armorsNeg2.length = 2 from rfl, (by decide : get_binary 1 2 = ['0', '1']),
    subset_defense_eq_selectMask,
    (show selectMask armorsNeg2 ['0', '1'] = [⟨"b", -1, -2⟩] from rfl)]
  norm_num [total_defense_of]

theorem armorsNeg2_defense2 :
    subset_defense armorsNeg2 (get_binary 2 armorsNeg2.length) = -2 := by
  rw [show armorsNeg2.length = 2 from rfl, (by decide : get_binary 2 2 = ['1', '0']),
    subset_defense_eq_selectMask,
    (show selectMask armorsNeg2 ['1', '0'] = [⟨"a", -1, -2⟩] from rfl)]
  norm_num [total_defense_of]

theorem armorsNeg2_defense3 :
    subset_defense armorsNeg2 (get_binary 3 armorsNeg2.length) = -4 := by
  rw [show armorsNeg2.length = 2 from rfl, (by decide : get_binary 3 2 = ['1', '1']),
    subset_defense_eq_selectMask,
    (show selectMask armorsNeg2 ['1', '1'] = [⟨"a", -1, -2⟩, ⟨"b", -1, -2⟩] from rfl)]
  norm_num [total_defense_of]

theorem armors31_defense_nonneg : ∀ a ∈ armors31, 0 ≤ a.defense := by decide

/-- C8, counterexample: (a) with 31 items of positive cost and budget 1000,
the feasible subsets decoded from indices `2^30 + 2^29` and
`2^30 + 2^29 + 1` share the maximum total value 10, yet the code returns the
empty subset (value 0), which is not the lowest-index maximal candidate;
(b) with 2 items of negative cost and defense `-2` below the `-1.0`
sentinel and budget `-1`, indices 1 and 2 share the maximum feasible value
`-2`, yet the code again returns the empty subset. -/
theorem C8_counterexample :
    (subset_cost armors31 (get_binary (2 ^ 30 + 2 ^ 29) armors31.length) ≤ 1000 ∧
      subset_cost armors31 (get_binary (2 ^ 30 + 2 ^ 29 + 1) armors31.length) ≤ 1000 ∧
      subset_defense armors31 (get_binary (2 ^ 30 + 2 ^ 29) armors31.length) = 10 ∧
      subset_defense armors31 (get_binary (2 ^ 30 + 2 ^ 29 + 1) armors31.length) = 10 ∧
      (∀ i : ℕ, subset_defense armors31 (get_binary i armors31.length) ≤ 10) ∧
      exhaustive_body armors31 1000 = [] ∧
      total_defense_of ([] : List ArmorItem) ≠ 10) ∧
    (subset_cost armorsNeg2 (get_binary 1 armorsNeg2.length) ≤ -1 ∧
      subset_cost armorsNeg2 (get_binary 2 armorsNeg2.length) ≤ -1 ∧
      subset_defense armorsNeg2 (get_binary 1 armorsNeg2.length) = -2 ∧
      subset_defense armorsNeg2 (get_binary 2 armorsNeg2.length) = -2 ∧
      (∀ i, i < 2 ^ armorsNeg2.length →
        subset_cost armorsNeg2 (get_binary i armorsNeg2.length) ≤ -1 →
        subset_defense armorsNeg2 (get_binary i armorsNeg2.length) ≤ -2) ∧
      exhaustive_body armorsNeg2 (-1) = [] ∧
      total_defense_of ([] : List ArmorItem) ≠ -2) := by
  constructor
  · refine ⟨?_, ?_, ?_, ?_, ?_, exhaustive_body_overflow armors31 1000 (by decide), ?_⟩
    · rw [subset_cost_eq_selectMask, selectMask_armors31_AB]
      norm_num [total_cost_of, itemA, itemB]
    · rw [subset_cost_eq_selectMask, selectMask_armors31_ABZ]
      norm_num [total_cost_of, itemA, itemB, itemZ]
    · rw [subset_defense_eq_selectMask, selectMask_armors31_AB]
      norm_num [total_defense_of, itemA, itemB]
    · rw [subset_defense_eq_selectMask, selectMask_armors31_ABZ]
      norm_num [total_defense_of, itemA, itemB, itemZ]
    · intro i
      have h := subset_defense_le_total armors31 (get_binary i armors31.length)
        armors31_defense_nonneg
      rwa [total_defense_armors31] at h
    · norm_num [total_defense_of]
  · refine ⟨?_, ?_, armorsNeg2_defense1, armorsNeg2_defense2, ?_, exhaustive_armorsNeg2, ?_⟩
    · rw [armorsNeg2_cost1]
    · rw [armorsNeg2_cost2]
    · intro i hi hfeas
      have hi4 : i < 4 := by simpa using hi
      interval_cases i
      · rw [armorsNeg2_cost0] at hfeas
        norm_num at hfeas
      · rw [armorsNeg2_defense1]
      · rw [armorsNeg2_defense2]
      · rw [armorsNeg2_defense3]
        norm_num
    · norm_num [total_defense_of]

/-- C9, counterexample: with `n = 32` the claimed bijection from
`[0, 2^32)` is impossible for the int-typed `get_binary` — the distinct
in-range indices `0` and `2^31` decode to the same subset, because `2^31`
arrives in the 32-bit `int num` parameter wrapped to `-2^31`, whose digit
string contains no `'1'` character at all. -/
theorem C9_counterexample :
    (0 : ℕ) < 2 ^ 32 ∧ (2 ^ 31 : ℕ) < 2 ^ 32 ∧ (0 : ℕ) ≠ 2 ^ 31 ∧
    decode_subset_int 0 32 = decode_subset_int (2 ^ 31) 32 := by
  refine ⟨by norm_num, by norm_num, by norm_num, by decide⟩

/-- C9, amended: for every fixed `n ≤ 31` (so that every index `i < 2^n`
fits in the 32-bit `int num` parameter), decoding is a bijection from
`[0, 2^n)` onto the power set of `{0, ..., n-1}`: distinct integers decode
to distinct subsets, and every subset of the `n` indices is decoded from
exactly one integer in range. -/
theorem C9_decode_bijection (n : ℕ) (hn : n ≤ 31) :
    (∀ i₁, i₁ < 2 ^ n → ∀ i₂, i₂ < 2 ^ n →
      decode_subset_int i₁ n = decode_subset_int i₂ n → i₁ = i₂) ∧
    (∀ S : Finset ℕ, S ⊆ Finset.range n →
      ∃! i, i < 2 ^ n ∧ decode_subset_int i n = S) := by
  have hfit : ∀ i : ℕ, i < 2 ^ n → i < 2 ^ 31 := fun i hi =>
    lt_of_lt_of_le hi (Nat.pow_le_pow_right (by omega) hn)
  constructor
  · intro i₁ h₁ i₂ h₂ heq
    rw [decode_subset_int_eq i₁ n (hfit i₁ h₁), decode_subset_int_eq i₂ n (hfit i₂ h₂)] at heq
    exact decode_subset_inj n i₁ i₂ h₁ h₂ heq
  intro S hS
  have hlen : ((List.range n).map fun j => if j ∈ S then '1' else '0').length = n := by
    simp
  have hbin : ∀ c ∈ (List.range n).map fun j => if j ∈ S then '1' else '0',
      c = '0' ∨ c = '1' := by
    intro c hc
    obtain ⟨j, _, rfl⟩ := List.mem_map.mp hc
    by_cases hj : j ∈ S
    · exact Or.inr (if_pos hj)
    · exact Or.inl (if_neg hj)
  obtain ⟨hilt, higet⟩ := get_binary_surj n _ hlen hbin
  have hdec : decode_subset
      (bitsToNat ((List.range n).map fun j => if j ∈ S then '1' else '0').reverse) n = S := by
    ext j
    unfold decode_subset
    rw [Finset.mem_filter, higet]
    constructor
    · intro hand
      have hjn := Finset.mem_range.mp hand.1
      have hchar := hand.2
      rw [getD_map_range n j _ _ hjn] at hchar
      by_cases hj : j ∈ S
      · exact hj
      · rw [if_neg hj] at hchar
        exact absurd hchar (by decide)
    · intro hj
      have hjn : j < n := Finset.mem_range.mp (hS hj)
      refine ⟨hS hj, ?_⟩
      rw [getD_map_range n j _ _ hjn, if_pos hj]
  have hdeci : decode_subset_int
      (bitsToNat ((List.range n).map fun j => if j ∈ S then '1' else '0').reverse) n = S := by
    rw [decode_subset_int_eq _ n (hfit _ hilt)]
    exact hdec
  refine ⟨bitsToNat ((List.range n).map fun j => if j ∈ S then '1' else '0').reverse,
    ⟨hilt, hdeci⟩, ?_⟩
  intro y hy
  have hy2 : decode_subset y n = S := by
    rw [← decode_subset_int_eq y n (hfit y hy.1)]
    exact hy.2
  exact decode_subset_inj n y _ hy.1 hilt (hy2.trans hdec.symm)

/-- Witness for C9 at `n = 2`. -/
theorem C9_witness :
    (2 : ℕ) ≤ 31 ∧
    ((∀ i₁, i₁ < 2 ^ 2 → ∀ i₂, i₂ < 2 ^ 2 →
      decode_subset_int i₁ 2 = decode_subset_int i₂ 2 → i₁ = i₂) ∧
    (∀ S : Finset ℕ, S ⊆ Finset.range 2 →
      ∃! i, i < 2 ^ 2 ∧ decode_subset_int i 2 = S)) :=
  ⟨by decide, C9_decode_bijection 2 (by decide)⟩

/-- C10: for fewer than 64 items and budget ≥ 0, the subset the exhaustive
optimizer returns lists items in strictly ascending order of their input
index, so the input's relative order is preserved and no index repeats. -/
theorem C10_output_index_sorted (armors : List ArmorItem) (b : ℚ)
    (hn : armors.length < 64) (hb : 0 ≤ b) :
    ∃ out idxs, exhaustive_max_defense armors b = some out ∧
      List.Pairwise (· < ·) idxs ∧ (∀ j ∈ idxs, j < armors.length) ∧
      out = idxs.map fun j => armors.getD j dummyArmor := by
  refine ⟨exhaustive_body armors b,
    (List.range armors.length).filter
      (fun j => (exhaustive_run armors b
        (pow_int32 armors.length).toNat).2.getD j (Char.ofNat 0) == '1'),
    ?_, ?_, ?_, rfl⟩
  · unfold exhaustive_max_defense
    rw [if_pos hn]
  · exact (List.pairwise_lt_range _).filter _
  · intro j hj
    exact List.mem_range.mp (List.mem_of_mem_filter hj)

/-- Witness for C10 at a concrete input. -/
theorem C10_witness :
    ([⟨"x", 1, 2⟩] : List ArmorItem).length < 64 ∧ (0 : ℚ) ≤ 1 ∧
    (∃ out idxs, exhaustive_max_defense [⟨"x", 1, 2⟩] 1 = some out ∧
      List.Pairwise (· < ·) idxs ∧ (∀ j ∈ idxs, j < ([⟨"x", 1, 2⟩] : List ArmorItem).length) ∧
      out = idxs.map fun j => ([⟨"x", 1, 2⟩] : List ArmorItem).getD j dummyArmor) :=
  ⟨by decide, by norm_num, C10_output_index_sorted [⟨"x", 1, 2⟩] 1 (by decide) (by norm_num)⟩
